import Mathlib

/-!
Verification of the `pass` reverse-proxy library (github.com/brettbuddin/pass).

The development shallowly embeds the manifest-to-dispatcher compiler:
`LoadManifest` (manifest.go), `New` / `mount` / `newReverseProxy` /
`setDirector` / `proxyHandler` (pass.go), and the functional options
(option.go).  External collaborators (Go stdlib `path`, `net/url`,
`net/http`, `net/http/httputil`, and the chi router capability) are modelled
only as far as the proxy relies on them; each such model is marked in its
doc comment.  Machine strings are modelled as Lean `String`s (lists of
characters); the repository only manipulates ASCII paths, so byte/rune
distinctions never matter for the statements proved here.
-/

namespace Pass

/-! ## Path segments: model of Go's `path.Clean` and `path.Join` (stdlib)

`path.Clean` is the classic lexical cleaner: split on '/', drop empty and
"." segments, resolve ".." against a stack (".." at the root is dropped;
leading ".."s of a relative path are kept), and re-render.  The stack-based
form below is extensionally the Go `lazybuf` loop.  `path.Join` (go1.16)
drops leading empty elements, joins the remaining elements with "/", and
cleans the result; an all-empty argument list yields "". -/

/-- A path segment: the characters between two '/' separators. -/
abbrev Seg := List Char

/-- Split a character list at every '/' (the segment structure `path.Clean`
works on).  Never returns `[]`; an empty input yields `[[]]`. -/
def splitSegs : List Char → List Seg
  | [] => [[]]
  | c :: cs =>
      match splitSegs cs with
      | [] => [[]]
      | s :: ss => if c = '/' then [] :: s :: ss else (c :: s) :: ss

/-- Join segments with '/' separators (inverse of `splitSegs` on '/'-free
segments). -/
def joinSegs : List Seg → List Char
  | [] => []
  | [s] => s
  | s :: ss => s ++ '/' :: joinSegs ss

/-- One step of the `path.Clean` stack algorithm.  The stack `st` keeps the
output segments with the most recent at the head. -/
def cleanStep (rooted : Bool) (st : List Seg) (seg : Seg) : List Seg :=
  if seg = [] ∨ seg = ['.'] then st
  else if seg = ['.', '.'] then
    match st with
    | [] => if rooted then [] else [['.', '.']]
    | t :: ts => if t = ['.', '.'] then ['.', '.'] :: t :: ts else ts
  else seg :: st

/-- Run the `path.Clean` stack over a segment list. -/
def runSegs (rooted : Bool) (segs : List Seg) : List Seg :=
  segs.foldl (cleanStep rooted) []

/-- Re-render a cleaned stack: rooted results get a leading '/', an empty
relative result becomes ".". -/
def renderClean (rooted : Bool) (st : List Seg) : List Char :=
  if rooted then '/' :: joinSegs st.reverse
  else if st = [] then ['.']
  else joinSegs st.reverse

/-- Model of Go `path.Clean` on character lists. -/
def cleanChars (p : List Char) : List Char :=
  match p with
  | [] => ['.']
  | c :: _ => renderClean (c = '/') (runSegs (c = '/') (splitSegs p))

/-- Model of Go `path.Clean` (stdlib). -/
def pathClean (s : String) : String := ⟨cleanChars s.data⟩

/-- Model of Go `strings.Join(elems, "/")` as `path.Join` uses it. -/
def joinSlash : List String → String
  | [] => ""
  | [s] => s
  | s :: ss => s ++ "/" ++ joinSlash ss

/-- Model of Go `path.Join` (stdlib, go1.16): skip leading empty elements,
join the remainder (including interior empties) with "/", `Clean` the
result; all-empty input gives "". -/
def goJoin : List String → String
  | [] => ""
  | e :: rest => if e = "" then goJoin rest else pathClean (joinSlash (e :: rest))

/-! ## Model of `net/url.Parse` (stdlib, external collaborator)

Restricted to the components the proxy reads (`Scheme`, `Host`, `Path`):
scheme splitting is translated from `getScheme`; URLs containing control
characters fail to parse, as in the stdlib; escape and port validation are
not modelled (they only add further parse failures, and the development
relies on parse failures only through their propagation out of
`newReverseProxy`). -/

def isSchemeAlpha (c : Char) : Bool := ('a' ≤ c && c ≤ 'z') || ('A' ≤ c && c ≤ 'Z')

def isDigitCh (c : Char) : Bool := '0' ≤ c && c ≤ '9'

/-- ASCII control characters (and DEL), which `net/url.Parse` rejects. -/
def isCtl (c : Char) : Bool := c < ' ' || c = Char.ofNat 127

/-- Character loop of `net/url`'s `getScheme`: `acc` holds the scheme
candidate read so far, `raw` the whole input (returned unchanged when no
scheme is present). -/
def getSchemeAux (raw : String) : List Char → List Char → Except String (String × String)
  | [], _ => .ok ("", raw)
  | c :: rest, acc =>
    if isSchemeAlpha c then getSchemeAux raw rest (acc ++ [c])
    else if isDigitCh c || c = '+' || c = '-' || c = '.' then
      if acc = [] then .ok ("", raw) else getSchemeAux raw rest (acc ++ [c])
    else if c = ':' then
      if acc = [] then .error "missing protocol scheme"
      else .ok (⟨acc⟩, ⟨rest⟩)
    else .ok ("", raw)

/-- Model of `net/url`'s `getScheme`: split `"scheme:rest"`. -/
def getScheme (raw : String) : Except String (String × String) :=
  getSchemeAux raw raw.data []

/-- The URL components the proxy reads. -/
structure URLModel where
  Scheme : String
  Host : String
  Path : String
deriving DecidableEq, Repr

/-- ASCII lower-casing (model of strings.ToLower on scheme characters). -/
def lowerChar (c : Char) : Char :=
  if 'A' ≤ c && c ≤ 'Z' then Char.ofNat (c.toNat + 32) else c

/-- Model of `net/url.Parse` (stdlib), see the section comment. -/
def urlParse (raw : String) : Except String URLModel :=
  if raw.data.any isCtl then .error "net/url: invalid control character in URL"
  else
    match getScheme raw with
    | .error e => .error e
    | .ok (sch, rest) =>
      match rest.data with
      | '/' :: '/' :: after =>
        .ok { Scheme := ⟨sch.data.map lowerChar⟩
              Host := ⟨after.takeWhile (fun c => c ≠ '/')⟩
              Path := ⟨after.dropWhile (fun c => c ≠ '/')⟩ }
      | _ => .ok { Scheme := ⟨sch.data.map lowerChar⟩, Host := "", Path := rest }

/-! ## Manifest data model (manifest.go) -/

/-- An individual HTTP method/path combination in which to proxy. -/
structure Route where
  Methods : List String := []
  Path : String := ""
deriving DecidableEq, Repr

/-- An upstream service in which to proxy.  `Annotations` is `none` for the
not-yet-defaulted nil map of the decoded form. -/
structure Upstream where
  Identifier : String := ""
  Annotations : Option (List (String × String)) := none
  Destination : String := ""
  Routes : List Route := []
  FlushIntervalMS : Int := 0
  Owner : String := ""
  PrefixPath : String := ""
deriving DecidableEq, Repr

/-- A list of upstream services in which to proxy.  `upstreamIndex` is the
unexported identifier index `LoadManifest` fills in (empty on a manifest
built literally, as the zero value of the Go struct is a nil map). -/
structure Manifest where
  Annotations : Option (List (String × String)) := none
  Upstreams : List Upstream := []
  PrefixPath : String := ""
  upstreamIndex : List (String × Upstream) := []
deriving DecidableEq, Repr

/-- The error values the library can return (`%w`-wrapped sentinel errors
carrying the offending string, and propagated `net/url` parse errors). -/
inductive PassError where
  | duplicateUpstreamIdentifier (id : String)
  | missingScheme (destination : String)
  | missingUpstreamForMiddleware (id : String)
  | urlParseFailure (destination : String) (msg : String)
deriving DecidableEq, Repr

instance {ε α : Type} [DecidableEq ε] [DecidableEq α] : DecidableEq (Except ε α) := fun a b =>
  match a, b with
  | .error e, .error e' =>
    if h : e = e' then isTrue (by rw [h]) else isFalse (by simp [h])
  | .ok x, .ok y =>
    if h : x = y then isTrue (by rw [h]) else isFalse (by simp [h])
  | .error _, .ok _ => isFalse (by simp)
  | .ok _, .error _ => isFalse (by simp)

/-- Annotation defaulting: a nil map becomes an empty map. -/
def defaultedAnnotations : Option (List (String × String)) → Option (List (String × String))
  | none => some []
  | some m => some m

/-- The identifier-uniqueness scan of `LoadManifest`: walk the upstreams,
keeping the set of identifiers inserted so far (modelled as the insertion
order list; only membership is consulted); a repeat fails with
`DuplicateUpstreamIdentifier` carrying that identifier. -/
def indexScan : List Upstream → List String → Except PassError (List String)
  | [], seen => .ok seen
  | u :: rest, seen =>
    if u.Identifier ∈ seen then .error (.duplicateUpstreamIdentifier u.Identifier)
    else indexScan rest (seen ++ [u.Identifier])

/-- Model of `LoadManifest` after HCL decoding (the decoder is an external
collaborator; `dm` is its output): default the annotation maps, then build
the identifier index while validating uniqueness.

The Go loop stores `&u`, the address of the `range` loop variable, under
each key.  The module declares `go 1.16`, so the loop variable is a single
cell reused across iterations; every stored pointer therefore dereferences
to that cell's final value — the last upstream of the list — which is what
the index maps every key to here. -/
def normalizeManifest (dm : Manifest) : Manifest :=
  { dm with
    Annotations := defaultedAnnotations dm.Annotations
    Upstreams := dm.Upstreams.map
      (fun u => { u with Annotations := defaultedAnnotations u.Annotations }) }

def loadManifest (dm : Manifest) : Except PassError Manifest :=
  match indexScan (normalizeManifest dm).Upstreams [] with
  | .error e => .error e
  | .ok keys =>
    .ok { normalizeManifest dm with upstreamIndex :=
      match (normalizeManifest dm).Upstreams.getLast? with
      | none => []
      | some lastU => keys.map (fun k => (k, lastU)) }

/-! ## Requests, traces and hook types

A handler is modelled as a pure function from a request to a `Trace`: the
ordered list of externally visible events it causes (observation-hook
invocations and hand-offs to the reverse-proxy primitive) plus how the
request left the dispatch table.  User-supplied hooks are given types that
reflect exactly what they can do in Go: an observation function or
not-found handler cannot, e.g., fabricate hook-invocation events. -/

/-- The parts of `*http.Request` the proxy reads or writes: `Path` is
`r.URL.Path`, `Host` is `r.Host`, `URLHost`/`URLScheme` are
`r.URL.Host`/`r.URL.Scheme`. -/
structure Request where
  Method : String := "GET"
  Path : String := ""
  Host : String := ""
  URLHost : String := ""
  URLScheme : String := ""
  Headers : List (String × String) := []
deriving DecidableEq, Repr

/-- Route information communicated to an ObserveFunction (pass.go). -/
structure RouteInfo where
  RouteMethod : String
  RoutePath : String
  RoutePfx : String
  UpstreamHost : String
  UpstreamIdentifier : String
  UpstreamOwner : String
deriving DecidableEq, Repr

/-- The response data the models track. -/
structure HTTPResponse where
  StatusCode : Nat := 200
  Headers : List (String × String) := []
deriving DecidableEq, Repr

/-- Externally visible events of handling one request:
`obs r info` — the configured observation hook was invoked with `(r, info)`;
`fwd destHost r` — the request `r` was handed to the reverse-proxy
primitive targeting `destHost`. -/
inductive Ev where
  | obs (r : Request) (info : RouteInfo)
  | fwd (destHost : String) (r : Request)
deriving DecidableEq, Repr

/-- How a request left the dispatch table. -/
inductive DispatchOutcome where
  | proxied
  | stripNotFound
  | customNotFound
  | routerNotFound
deriving DecidableEq, Repr

structure Trace where
  events : List Ev := []
  outcome : DispatchOutcome
deriving DecidableEq, Repr

/-- `http.Handler`, observably. -/
abbrev HandlerM := Request → Trace

/-- `func(http.Handler) http.Handler` middleware. -/
abbrev MiddlewareM := HandlerM → HandlerM

/-- An ObserveFunction value; its return is unobservable, so only its
presence in the configuration matters. -/
abbrev ObserveFunction := Request → RouteInfo → Unit

/-- A custom ErrorHandler: given the request and the error text, the status
it writes (its side effects are summarised by recording the invocation). -/
abbrev ErrorHandler := Request → String → Nat

/-- A user not-found `http.HandlerFunc`: it writes some response; it has no
access to the observation hook or the reverse proxy. -/
abbrev NotFoundFn := Request → HTTPResponse

/-- An error-log destination (`*log.Logger` values, observably). -/
inductive LogSink where
  | discard
  | logger (tag : String)
deriving DecidableEq, Repr

/-! ## Functional options (option.go) -/

/-- Realized configuration for mounting routes (option.go `mountConfig`;
`middleware` is the `upstreamMiddleware` map, modelled as an association
list in insertion order). -/
structure mountConfig where
  observe : Option ObserveFunction
  root : String
  middleware : List (String × List MiddlewareM)
  keepTrailingSlashes : Bool
  bufferPool : Option Unit
  errorHandler : Option ErrorHandler
  errorLog : LogSink
  requestModifier : Option (Request → Request)
  responseModifier : Option (HTTPResponse → Except String HTTPResponse)
  transport : Option Unit
  notFoundHandler : Option NotFoundFn

/-- `newMountConfig`: defaults — an error log writing to `io.Discard` and an
empty middleware map. -/
def newMountConfig : mountConfig :=
  { observe := none
    root := ""
    middleware := []
    keepTrailingSlashes := false
    bufferPool := none
    errorHandler := none
    errorLog := .discard
    requestModifier := none
    responseModifier := none
    transport := none
    notFoundHandler := none }

/-- A functional option used when mounting a manifest. -/
abbrev MountOption := mountConfig → mountConfig

/-- Go map assignment `m[k] = v` on the association-list model: replace the
existing entry for `k` or append a new one. -/
def mapSet {α : Type} : List (String × α) → String → α → List (String × α)
  | [], k, v => [(k, v)]
  | (k', v') :: rest, k, v =>
      if k' = k then (k, v) :: rest else (k', v') :: mapSet rest k v

/-- Go map lookup `m[k]` on the association-list model. -/
def mapGet {α : Type} : List (String × α) → String → Option α
  | [], _ => none
  | (k', v) :: rest, k => if k' = k then some v else mapGet rest k

def WithObserveFunction (fn : ObserveFunction) : MountOption :=
  fun c => { c with observe := some fn }

def WithRoot (pfx : String) : MountOption :=
  fun c => { c with root := pfx }

def WithErrorLog (l : LogSink) : MountOption :=
  fun c => { c with errorLog := l }

def WithBufferPool (p : Unit) : MountOption :=
  fun c => { c with bufferPool := some p }

def WithResponseModifier (fn : HTTPResponse → Except String HTTPResponse) : MountOption :=
  fun c => { c with responseModifier := some fn }

/-- `WithUpstreamMiddleware` registers a middleware stack for an upstream
identifier: `c.upstreamMiddleware[upstream] = m`. -/
def WithUpstreamMiddleware (upstream : String) (m : List MiddlewareM) : MountOption :=
  fun c => { c with middleware := mapSet c.middleware upstream m }

def WithErrorHandler (fn : ErrorHandler) : MountOption :=
  fun c => { c with errorHandler := some fn }

def WithRequestModifier (fn : Request → Request) : MountOption :=
  fun c => { c with requestModifier := some fn }

def WithTransport (t : Unit) : MountOption :=
  fun c => { c with transport := some t }

def WithNotFound (h : NotFoundFn) : MountOption :=
  fun c => { c with notFoundHandler := some h }

def KeepTrailingSlashes : MountOption :=
  fun c => { c with keepTrailingSlashes := true }

/-- Apply the options in order to the defaults (`New`'s opening loop). -/
def applyOpts (opts : List MountOption) : mountConfig :=
  opts.foldl (fun c o => o c) newMountConfig

/-! ## The per-upstream forwarding factory (pass.go) -/

/-- The configured state of one `httputil.ReverseProxy` (stdlib primitive):
the fields `newReverseProxy` sets on it.  `errorLog = none` stands for the
package-level default logger the stdlib would use. -/
structure ReverseProxyM where
  target : URLModel
  director : Request → Request
  transport : Option Unit
  errorLog : Option LogSink
  bufferPool : Option Unit
  modifyResponse : Option (HTTPResponse → Except String HTTPResponse)
  errorHandler : Option ErrorHandler
  flushIntervalNS : Int

/-- Whether a string ends with '/'. -/
def endsSlash (s : String) : Bool :=
  match s.data.getLast? with
  | some '/' => true
  | _ => false

/-- Whether a string starts with '/'. -/
def startsSlash (s : String) : Bool :=
  match s.data with
  | c :: _ => decide (c = '/')
  | [] => false

/-- Model of `singleJoiningSlash` (stdlib httputil). -/
def singleJoiningSlash (a b : String) : String :=
  if endsSlash a && startsSlash b then a ++ ⟨b.data.drop 1⟩
  else if !endsSlash a && !startsSlash b then a ++ "/" ++ b
  else a ++ b

/-- Model of the Director installed by `httputil.NewSingleHostReverseProxy`
(stdlib): rewrites the URL toward the target and leaves `r.Host` unchanged
(the behaviour the comment in `setDirector` works around). -/
def singleHostDirector (target : URLModel) (r : Request) : Request :=
  { r with URLScheme := target.Scheme
           URLHost := target.Host
           Path := singleJoiningSlash target.Path r.Path }

/-- `setDirector` (pass.go): wrap the proxy's existing director so that the
base director runs first, then `r.Host` is overridden with the destination
host, then the configured request modifier (if any) runs. -/
def setDirector (base : Request → Request) (destHost : String)
    (modifier : Option (Request → Request)) : Request → Request :=
  fun r =>
    let r1 := base r
    let r2 := { r1 with Host := destHost }
    match modifier with
    | none => r2
    | some f => f r2

/-- `newReverseProxy` (pass.go): parse the destination, require a scheme,
and configure the `httputil.ReverseProxy` primitive.  (`cfg.errorLog` is
always non-nil — `newMountConfig` defaults it — so the `ErrorLog`
assignment is unconditional in effect; `Transport`, `BufferPool`,
`ModifyResponse` and `ErrorHandler` keep their nil defaults when not
configured, which the `Option` copies reproduce.) -/
def newReverseProxy (u : Upstream) (cfg : mountConfig) : Except PassError ReverseProxyM :=
  match urlParse u.Destination with
  | .error e => .error (.urlParseFailure u.Destination e)
  | .ok dest =>
    if dest.Scheme = "" then .error (.missingScheme u.Destination)
    else
      .ok { target := dest
            director := setDirector (singleHostDirector dest) dest.Host cfg.requestModifier
            transport := cfg.transport
            errorLog := some cfg.errorLog
            bufferPool := cfg.bufferPool
            modifyResponse := cfg.responseModifier
            errorHandler := cfg.errorHandler
            flushIntervalNS := u.FlushIntervalMS * 1000000 }

/-- What handling a proxy error produces: the client-visible status, the
messages written to error logs, and the invocations of a custom handler. -/
structure ErrorOutcome where
  status : Nat
  logged : List (LogSink × String)
  customRan : List String
deriving DecidableEq, Repr

/-- Model of `httputil.ReverseProxy`'s error path (stdlib): a configured
`ErrorHandler` fully replaces the default behaviour of logging to
`ErrorLog` and responding `502 Bad Gateway`. -/
def ReverseProxyM.handleError (p : ReverseProxyM) (r : Request) (err : String) : ErrorOutcome :=
  match p.errorHandler with
  | some h => { status := h r err, logged := [], customRan := [err] }
  | none =>
    { status := 502
      logged := [(match p.errorLog with | some l => l | none => .logger "std", err)]
      customRan := [] }

/-- The client-visible outcome of the response leg. -/
inductive DeliverOutcome where
  | delivered (resp : HTTPResponse)
  | errored (e : ErrorOutcome)
deriving DecidableEq, Repr

/-- Model of the response leg of `httputil.ReverseProxy.ServeHTTP` (stdlib):
a transport error goes to the error path; otherwise `ModifyResponse` (if
set) runs, and its error also goes to the error path. -/
def ReverseProxyM.deliver (p : ReverseProxyM) (r : Request)
    (transportResult : Except String HTTPResponse) : DeliverOutcome :=
  match transportResult with
  | .error e => .errored (p.handleError r e)
  | .ok resp =>
    match p.modifyResponse with
    | none => .delivered resp
    | some f =>
      match f resp with
      | .ok resp' => .delivered resp'
      | .error e => .errored (p.handleError r e)

/-! ## The route compiler / mounter (pass.go `New`, part of chi modelled) -/

/-- `strings.TrimPrefix` (stdlib). -/
def trimPre (s pre : String) : String :=
  if pre.data.isPrefixOf s.data then ⟨s.data.drop pre.data.length⟩ else s

/-- Model of `http.StripPrefix` (stdlib, go1.16): with an empty prefix the
handler is returned unchanged; otherwise the prefix is trimmed from the
URL path, and a request whose path does not shrink gets `404 Not Found`. -/
def stripPfxHandler (pfx : String) (h : HandlerM) : HandlerM :=
  if pfx = "" then h
  else fun r =>
    let p := trimPre r.Path pfx
    if p.data.length < r.Path.data.length then h { r with Path := p }
    else { events := [], outcome := .stripNotFound }

/-- `proxyHandler` (pass.go): run the observe closure, then hand the request
to the reverse-proxy primitive. -/
def proxyHandler (rp : ReverseProxyM) (observe : Request → List Ev) : HandlerM :=
  fun r => { events := observe r ++ [.fwd rp.target.Host r], outcome := .proxied }

/-- The request-time observe closure built in `mount`: nothing when no hook
is configured; otherwise one invocation carrying the `RouteInfo` whose
fields come from the registration context (`UpstreamHost` is set to
`u.Destination`). -/
def observeClosure (cfg : mountConfig) (method : String) (rt : Route) (pfx : String)
    (u : Upstream) : Request → List Ev :=
  fun r =>
    match cfg.observe with
    | none => []
    | some _ =>
      [.obs r { RouteMethod := method
                RoutePath := rt.Path
                RoutePfx := pfx
                UpstreamHost := u.Destination
                UpstreamIdentifier := u.Identifier
                UpstreamOwner := u.Owner }]

/-- One entry of the router capability's registration table. -/
structure Registration where
  method : String
  pattern : String
  handler : HandlerM

/-- The registrations `mount` performs for one upstream: for every route and
method, the pattern `path.Join(prefix, rt.Path)` with the handler
`http.StripPrefix(prefix, proxyHandler(rproxy, observe))`, where
`prefix = path.Join(rootPath, u.PrefixPath)`. -/
def mountRegs (rootPath : String) (u : Upstream) (cfg : mountConfig)
    (rp : ReverseProxyM) : List Registration :=
  u.Routes.flatMap fun rt =>
    let pfx := goJoin [rootPath, u.PrefixPath]
    rt.Methods.map fun method =>
      { method := method
        pattern := goJoin [pfx, rt.Path]
        handler := stripPfxHandler pfx (proxyHandler rp (observeClosure cfg method rt pfx u)) }

/-- `mount` (part_006): build the upstream's reverse proxy, then register
its routes. -/
def mount (rootPath : String) (u : Upstream) (cfg : mountConfig) :
    Except PassError (List Registration) :=
  match newReverseProxy u cfg with
  | .error e => .error e
  | .ok rp => .ok (mountRegs rootPath u cfg rp)

/-- chi `Group`/`Use`: a middleware stack wraps, in order, every handler
registered within the group (`m₁ (m₂ … (h))`). -/
def wrapMW (ms : List MiddlewareM) (h : HandlerM) : HandlerM :=
  ms.foldr (fun mw acc => mw acc) h

/-- The middleware-validation scan at the top of `New`: find a middleware
key that is not in the manifest's upstream index.  (Go iterates the map in
unspecified order; the model iterates the configured entries in insertion
order, which fixes which of several unknown keys is reported but not
whether one is.) -/
def findBadMWKey (m : Manifest) : List (String × List MiddlewareM) → Option String
  | [] => none
  | (k, _) :: rest =>
      if (mapGet m.upstreamIndex k).isNone then some k else findBadMWKey m rest

/-- A group's registrations as they land in the router: wrapped by the
upstream's configured middleware stack, if any (chi `Group`/`Use`). -/
def groupRegs (cfg : mountConfig) (u : Upstream) (regs : List Registration) :
    List Registration :=
  match mapGet cfg.middleware u.Identifier with
  | some ms => regs.map (fun reg => { reg with handler := wrapMW ms reg.handler })
  | none => regs

/-- The per-upstream mounting loop of `New`: group each upstream's
registrations, wrapped by its configured middleware stack; the first
failure aborts. -/
def mountAll (rootPath : String) (cfg : mountConfig) :
    List Upstream → Except PassError (List Registration)
  | [] => .ok []
  | u :: rest =>
    match mount rootPath u cfg with
    | .error e => .error e
    | .ok regs =>
      match mountAll rootPath cfg rest with
      | .error e => .error e
      | .ok more => .ok (groupRegs cfg u regs ++ more)

/-- A compiled reverse-proxy dispatcher. -/
structure Proxy where
  manifest : Manifest
  regs : List Registration
  notFoundHandler : Option NotFoundFn
  root : String

/-- `New` (part_006): merge the options, validate the middleware keys
against the upstream index, compute the root as
`path.Join(cfg.root, m.PrefixPath)`, and mount every upstream. -/
def New (m : Manifest) (opts : List MountOption) : Except PassError Proxy :=
  match findBadMWKey m (applyOpts opts).middleware with
  | some k => .error (.missingUpstreamForMiddleware k)
  | none =>
    match mountAll (goJoin [(applyOpts opts).root, m.PrefixPath]) (applyOpts opts) m.Upstreams with
    | .error e => .error e
    | .ok regs =>
      .ok { manifest := m
            regs := regs
            notFoundHandler := (applyOpts opts).notFoundHandler
            root := goJoin [(applyOpts opts).root, m.PrefixPath] }

/-- `Proxy.Root` (pass.go). -/
def Proxy.Root (p : Proxy) : String :=
  if p.root = "" then "/" else p.root

/-- `Proxy.Upstreams` (pass.go). -/
def Proxy.Upstreams (p : Proxy) : List Upstream :=
  p.manifest.Upstreams

/-- Model of one pattern segment of the router capability (chi): a
`{…}` segment matches any single nonempty segment, anything else matches
literally. -/
def segMatch (pat seg : Seg) : Bool :=
  match pat with
  | [] => pat == seg
  | c :: _ => if c = '{' then decide (seg ≠ []) else pat == seg

def segsMatch : List Seg → List Seg → Bool
  | [], [] => true
  | p :: ps, s :: ss => segMatch p s && segsMatch ps ss
  | _, _ => false

/-- Model of the router capability's path match. -/
def patMatch (pattern pathStr : String) : Bool :=
  segsMatch (splitSegs pattern.data) (splitSegs pathStr.data)

/-- Model of dispatch (`Proxy.ServeHTTP` through the chi router): the
matching registration's handler runs; otherwise the configured not-found
handler (which, being plain user code, produces no hook or forwarding
events) or the router's default textual 404. -/
def Proxy.serve (p : Proxy) (r : Request) : Trace :=
  match p.regs.find? (fun reg => reg.method == r.Method && patMatch reg.pattern r.Path) with
  | some reg => reg.handler r
  | none =>
    match p.notFoundHandler with
    | some _ => { events := [], outcome := .customNotFound }
    | none => { events := [], outcome := .routerNotFound }

/-- Dispatch through a freshly compiled proxy, `none` when compilation
fails (used by concrete evaluation witnesses). -/
def serveNew (m : Manifest) (opts : List MountOption) (r : Request) : Option Trace :=
  match New m opts with
  | .error _ => none
  | .ok p => some (p.serve r)

/-- The error `New` returns, `none` on success (used by concrete evaluation
witnesses; a `Proxy` holds handler functions, so the `Except` itself has no
decidable equality). -/
def newError (m : Manifest) (opts : List MountOption) : Option PassError :=
  match New m opts with
  | .error e => some e
  | .ok _ => none

/-! ## Lemmas: the segment structure of paths -/

/-- Which rendering mode a path uses: rooted iff it starts with '/'. -/
def rootedOf : List Char → Bool
  | [] => false
  | c :: _ => decide (c = '/')

theorem splitSegs_ne_nil (p : List Char) : splitSegs p ≠ [] := by
  cases p with
  | nil => simp [splitSegs]
  | cons c cs =>
    unfold splitSegs
    cases h : splitSegs cs with
    | nil => simp
    | cons s ss => by_cases hc : c = '/' <;> simp [hc]

theorem splitSegs_cons (c : Char) (cs : List Char) :
    splitSegs (c :: cs) =
      (match splitSegs cs with
       | [] => [[]]
       | s :: ss => if c = '/' then [] :: s :: ss else (c :: s) :: ss) := rfl

theorem splitSegs_cons_slash (ys : List Char) : splitSegs ('/' :: ys) = [] :: splitSegs ys := by
  rw [splitSegs_cons]
  cases h : splitSegs ys with
  | nil => exact absurd h (splitSegs_ne_nil ys)
  | cons s ss => simp

theorem splitSegs_append (xs ys : List Char) :
    splitSegs (xs ++ '/' :: ys) = splitSegs xs ++ splitSegs ys := by
  induction xs with
  | nil => simpa using splitSegs_cons_slash ys
  | cons x xs ih =>
    rw [List.cons_append, splitSegs_cons, ih, splitSegs_cons]
    cases h : splitSegs xs with
    | nil => exact absurd h (splitSegs_ne_nil xs)
    | cons s ss => by_cases hx : x = '/' <;> simp [hx]

theorem splitSegs_no_slash (p : List Char) : ∀ s ∈ splitSegs p, '/' ∉ s := by
  induction p with
  | nil => intro s hs; simp [splitSegs] at hs; simp [hs]
  | cons c cs ih =>
    intro s hs
    rw [splitSegs_cons] at hs
    cases h : splitSegs cs with
    | nil => exact absurd h (splitSegs_ne_nil cs)
    | cons t ts =>
      rw [h] at hs
      have ht : '/' ∉ t := ih t (by rw [h]; exact List.mem_cons_self _ _)
      by_cases hc : c = '/'
      · simp only [hc, if_true] at hs
        rcases List.mem_cons.mp hs with rfl | hs'
        · simp
        rcases List.mem_cons.mp hs' with rfl | hmem
        · exact ht
        · exact ih s (by rw [h]; exact List.mem_cons_of_mem _ hmem)
      · simp only [hc, if_false] at hs
        rcases List.mem_cons.mp hs with rfl | hmem
        · intro hin
          rcases List.mem_cons.mp hin with heq | hin'
          · exact hc heq.symm
          · exact ht hin'
        · exact ih s (by rw [h]; exact List.mem_cons_of_mem _ hmem)

theorem splitSegs_of_no_slash (s : Seg) (h : '/' ∉ s) : splitSegs s = [s] := by
  induction s with
  | nil => rfl
  | cons c cs ih =>
    have hc : c ≠ '/' := fun hc => h (hc ▸ List.mem_cons_self _ _)
    have hcs : '/' ∉ cs := fun hm => h (List.mem_cons_of_mem _ hm)
    unfold splitSegs
    rw [ih hcs]
    simp [hc]

theorem splitSegs_joinSegs (ss : List Seg) (h1 : ss ≠ []) (h2 : ∀ s ∈ ss, '/' ∉ s) :
    splitSegs (joinSegs ss) = ss := by
  induction ss with
  | nil => exact absurd rfl h1
  | cons s ss ih =>
    cases ss with
    | nil => simpa [joinSegs] using splitSegs_of_no_slash s (h2 s (List.mem_cons_self _ _))
    | cons t ts =>
      rw [show joinSegs (s :: t :: ts) = s ++ '/' :: joinSegs (t :: ts) from rfl,
          splitSegs_append,
          splitSegs_of_no_slash s (h2 s (List.mem_cons_self _ _)),
          ih (by simp) (fun x hx => h2 x (List.mem_cons_of_mem _ hx))]
      rfl

/-! ## Lemmas: the `path.Clean` stack invariant and replay -/

/-- A normal path segment: nonempty, not ".", not "..", '/'-free. -/
def PlainSeg (s : Seg) : Prop := s ≠ [] ∧ s ≠ ['.'] ∧ s ≠ ['.', '.'] ∧ '/' ∉ s

/-- The invariant of `path.Clean` stacks: plain segments atop a run of
".."s, and no ".."s at all for rooted paths. -/
def GoodStack (rooted : Bool) (st : List Seg) : Prop :=
  ∃ ns d, st = ns ++ List.replicate d ['.', '.'] ∧ (∀ s ∈ ns, PlainSeg s) ∧
    (rooted = true → d = 0)

theorem goodStack_nil (rooted : Bool) : GoodStack rooted [] :=
  ⟨[], 0, by simp, by simp, fun _ => rfl⟩

theorem goodStack_cleanStep {rooted : Bool} {st : List Seg} {seg : Seg}
    (h : GoodStack rooted st) (hseg : '/' ∉ seg) :
    GoodStack rooted (cleanStep rooted st seg) := by
  by_cases h1 : seg = [] ∨ seg = ['.']
  · simpa [cleanStep, h1] using h
  by_cases h2 : seg = ['.', '.']
  · obtain ⟨ns, d, rfl, hns, hd⟩ := h
    cases ns with
    | nil =>
      cases d with
      | zero =>
        cases rooted with
        | false => exact ⟨[], 1, by simp [cleanStep, h1, h2], by simp, by simp⟩
        | true => exact ⟨[], 0, by simp [cleanStep, h1, h2], by simp, fun _ => rfl⟩
      | succ d' =>
        cases rooted with
        | false =>
          refine ⟨[], d' + 2, ?_, by simp, by simp⟩
          simp only [List.nil_append, List.replicate_succ, cleanStep, h1, h2]
          simp
        | true => exact absurd (hd rfl) (by simp)
    | cons n0 ns' =>
      have hn0 : PlainSeg n0 := hns n0 (List.mem_cons_self _ _)
      refine ⟨ns', d, ?_, fun s hs => hns s (List.mem_cons_of_mem _ hs), hd⟩
      simp only [List.cons_append, cleanStep, h1, h2, if_false, if_true]
      simp [hn0.2.2.1]
  · obtain ⟨ns, d, rfl, hns, hd⟩ := h
    refine ⟨seg :: ns, d, ?_, ?_, hd⟩
    · simp [cleanStep, h1, h2]
    · intro s hs
      rcases List.mem_cons.mp hs with rfl | hs'
      · exact ⟨fun he => h1 (Or.inl he), fun he => h1 (Or.inr he), h2, hseg⟩
      · exact hns s hs'

theorem goodStack_foldl {rooted : Bool} (segs : List Seg) {st : List Seg}
    (h : GoodStack rooted st) (hsegs : ∀ s ∈ segs, '/' ∉ s) :
    GoodStack rooted (segs.foldl (cleanStep rooted) st) := by
  induction segs generalizing st with
  | nil => simpa using h
  | cons p ps ih =>
    rw [List.foldl_cons]
    exact ih (goodStack_cleanStep h (hsegs p (List.mem_cons_self _ _)))
      (fun s hs => hsegs s (List.mem_cons_of_mem _ hs))

theorem goodStack_runSegs (rooted : Bool) (p : List Char) :
    GoodStack rooted (runSegs rooted (splitSegs p)) :=
  goodStack_foldl _ (goodStack_nil rooted) (splitSegs_no_slash p)

theorem foldl_cleanStep_plain (rooted : Bool) (ps : List Seg) (st : List Seg)
    (h : ∀ s ∈ ps, PlainSeg s) :
    ps.foldl (cleanStep rooted) st = ps.reverse ++ st := by
  induction ps generalizing st with
  | nil => simp
  | cons p ps ih =>
    have hp := h p (List.mem_cons_self _ _)
    have hstep : cleanStep rooted st p = p :: st := by
      simp [cleanStep, hp.1, hp.2.1, hp.2.2.1]
    rw [List.foldl_cons, hstep, ih _ (fun s hs => h s (List.mem_cons_of_mem _ hs))]
    simp

theorem foldl_cleanStep_dots (n k : Nat) :
    (List.replicate n (['.', '.'] : Seg)).foldl (cleanStep false) (List.replicate k ['.', '.']) =
      List.replicate (n + k) ['.', '.'] := by
  induction n generalizing k with
  | zero => simp
  | succ n ih =>
    rw [List.replicate_succ, List.foldl_cons]
    have hstep : cleanStep false (List.replicate k (['.', '.'] : Seg)) ['.', '.'] =
        List.replicate (k + 1) ['.', '.'] := by
      cases k with
      | zero => simp [cleanStep]
      | succ k' => simp [cleanStep, List.replicate_succ]
    rw [hstep, ih (k + 1)]
    congr 1
    omega

theorem foldl_replay (rooted : Bool) (ns : List Seg) (d : Nat)
    (hns : ∀ s ∈ ns, PlainSeg s) (hd : rooted = true → d = 0) :
    ((ns ++ List.replicate d ['.', '.']).reverse).foldl (cleanStep rooted) [] =
      ns ++ List.replicate d ['.', '.'] := by
  rw [List.reverse_append, List.reverse_replicate, List.foldl_append]
  have hplain : ∀ s ∈ ns.reverse, PlainSeg s := fun s hs => hns s (List.mem_reverse.mp hs)
  cases rooted with
  | false =>
    have hdots : (List.replicate d (['.', '.'] : Seg)).foldl (cleanStep false) [] =
        List.replicate d ['.', '.'] := by
      simpa using foldl_cleanStep_dots d 0
    rw [hdots, foldl_cleanStep_plain false _ _ hplain, List.reverse_reverse]
  | true =>
    rw [hd rfl]
    simp only [List.replicate_zero, List.foldl_nil, List.append_nil]
    rw [foldl_cleanStep_plain true _ _ hplain, List.reverse_reverse, List.append_nil]

/-! ## Lemmas: rendering a cleaned stack and replaying it -/

theorem goodStack_props {rooted : Bool} {st : List Seg} (h : GoodStack rooted st) :
    ∀ s ∈ st, s ≠ [] ∧ '/' ∉ s := by
  obtain ⟨ns, d, rfl, hns, _⟩ := h
  intro s hs
  rcases List.mem_append.mp hs with hn | hr
  · exact ⟨(hns s hn).1, (hns s hn).2.2.2⟩
  · have : s = ['.', '.'] := List.eq_of_mem_replicate hr
    subst this
    exact ⟨by simp, by simp⟩

theorem joinSegs_cons_ne_nil (s0 : Seg) (rest : List Seg) (h : s0 ≠ []) :
    joinSegs (s0 :: rest) ≠ [] := by
  cases rest with
  | nil => simpa [joinSegs] using h
  | cons t ts =>
    show s0 ++ '/' :: joinSegs (t :: ts) ≠ []
    simp

theorem rootedOf_joinSegs (s0 : Seg) (rest : List Seg) (h : s0 ≠ []) :
    rootedOf (joinSegs (s0 :: rest)) = rootedOf s0 := by
  obtain ⟨c, cs, rfl⟩ := List.exists_cons_of_ne_nil h
  cases rest with
  | nil => rfl
  | cons t ts => rfl

theorem renderClean_ne_nil {rooted : Bool} {st : List Seg} (h : GoodStack rooted st) :
    renderClean rooted st ≠ [] := by
  cases rooted with
  | true => simp [renderClean]
  | false =>
    by_cases hst : st = []
    · simp [renderClean, hst]
    · have hrev : st.reverse ≠ [] := by simpa using hst
      obtain ⟨s0, rest, hrv⟩ := List.exists_cons_of_ne_nil hrev
      have hs0 : s0 ≠ [] :=
        (goodStack_props h s0 (by rw [← List.mem_reverse, hrv]; exact List.mem_cons_self _ _)).1
      simp only [renderClean, hst, if_false]
      rw [hrv]
      simpa using joinSegs_cons_ne_nil s0 rest hs0

theorem rootedOf_renderClean {rooted : Bool} {st : List Seg} (h : GoodStack rooted st) :
    rootedOf (renderClean rooted st) = rooted := by
  cases rooted with
  | true => simp [renderClean, rootedOf]
  | false =>
    by_cases hst : st = []
    · simp [renderClean, hst, rootedOf]
    · have hrev : st.reverse ≠ [] := by simpa using hst
      obtain ⟨s0, rest, hrv⟩ := List.exists_cons_of_ne_nil hrev
      have hmem : s0 ∈ st := by rw [← List.mem_reverse, hrv]; exact List.mem_cons_self _ _
      have hs0 : s0 ≠ [] := (goodStack_props h s0 hmem).1
      have hsl : '/' ∉ s0 := (goodStack_props h s0 hmem).2
      simp only [renderClean, hst, if_false, Bool.false_eq_true]
      rw [hrv, rootedOf_joinSegs s0 rest hs0]
      obtain ⟨c, cs, rfl⟩ := List.exists_cons_of_ne_nil hs0
      have hc : c ≠ '/' := fun hc => hsl (hc ▸ List.mem_cons_self _ _)
      simp [rootedOf, hc]

theorem runSegs_renderClean {rooted : Bool} {st : List Seg} (h : GoodStack rooted st) :
    runSegs rooted (splitSegs (renderClean rooted st)) = st := by
  obtain ⟨ns, d, rfl, hns, hd⟩ := h
  have hfree : ∀ s ∈ (ns ++ List.replicate d (['.', '.'] : Seg)).reverse, '/' ∉ s := by
    intro s hs
    exact (goodStack_props ⟨ns, d, rfl, hns, hd⟩ s (List.mem_reverse.mp hs)).2
  have hne : ∀ s ∈ (ns ++ List.replicate d (['.', '.'] : Seg)).reverse, s ≠ [] := by
    intro s hs
    exact (goodStack_props ⟨ns, d, rfl, hns, hd⟩ s (List.mem_reverse.mp hs)).1
  cases rooted with
  | true =>
    have hd0 := hd rfl
    subst hd0
    simp only [List.replicate_zero, List.append_nil] at *
    simp only [renderClean, if_true]
    rw [splitSegs_cons_slash]
    by_cases hns0 : ns = []
    · subst hns0
      simp [runSegs, splitSegs, cleanStep, joinSegs]
    · have hnrev : ns.reverse ≠ [] := by
        simp only [ne_eq, List.reverse_eq_nil_iff]
        exact hns0
      rw [splitSegs_joinSegs ns.reverse hnrev hfree]
      show List.foldl (cleanStep true) (cleanStep true [] []) ns.reverse = ns
      rw [show cleanStep true [] [] = [] from by simp [cleanStep]]
      have := foldl_replay true ns 0 hns (fun _ => rfl)
      simpa using this
  | false =>
    by_cases hst : ns ++ List.replicate d (['.', '.'] : Seg) = []
    · rw [hst]
      simp only [renderClean, if_pos rfl]
      show runSegs false (splitSegs ['.']) = []
      simp [splitSegs, runSegs, cleanStep]
    · have hrev : (ns ++ List.replicate d (['.', '.'] : Seg)).reverse ≠ [] := by
        simp only [ne_eq, List.reverse_eq_nil_iff]
        exact hst
      simp only [renderClean, hst, if_false, Bool.false_eq_true]
      rw [splitSegs_joinSegs _ hrev hfree]
      exact foldl_replay false ns d hns (by simp)

/-! ## Lemmas: `cleanChars` composition and idempotence -/

theorem cleanChars_of_ne_nil (p : List Char) (h : p ≠ []) :
    cleanChars p = renderClean (rootedOf p) (runSegs (rootedOf p) (splitSegs p)) := by
  obtain ⟨c, cs, rfl⟩ := List.exists_cons_of_ne_nil h
  rfl

theorem cleanChars_ne_nil (p : List Char) : cleanChars p ≠ [] := by
  cases p with
  | nil => simp [cleanChars]
  | cons c cs =>
    rw [cleanChars_of_ne_nil _ (by simp)]
    exact renderClean_ne_nil (goodStack_runSegs _ _)

theorem rootedOf_append (s t : List Char) (h : s ≠ []) : rootedOf (s ++ t) = rootedOf s := by
  obtain ⟨c, cs, rfl⟩ := List.exists_cons_of_ne_nil h
  rfl

theorem runSegs_append (rooted : Bool) (a b : List Seg) :
    runSegs rooted (a ++ b) = b.foldl (cleanStep rooted) (runSegs rooted a) := by
  unfold runSegs
  rw [List.foldl_append]

theorem cleanChars_pre (s c : List Char) (hs : s ≠ []) :
    cleanChars (cleanChars s ++ '/' :: c) = cleanChars (s ++ '/' :: c) := by
  have hgood : GoodStack (rootedOf s) (runSegs (rootedOf s) (splitSegs s)) :=
    goodStack_runSegs _ _
  have hrne : renderClean (rootedOf s) (runSegs (rootedOf s) (splitSegs s)) ≠ [] :=
    renderClean_ne_nil hgood
  have lhs : cleanChars (cleanChars s ++ '/' :: c) =
      renderClean (rootedOf s) ((splitSegs c).foldl (cleanStep (rootedOf s))
        (runSegs (rootedOf s) (splitSegs s))) := by
    rw [cleanChars_of_ne_nil s hs,
        cleanChars_of_ne_nil _ (fun h => hrne (List.append_eq_nil.mp h).1),
        rootedOf_append _ _ hrne, rootedOf_renderClean hgood, splitSegs_append,
        runSegs_append, runSegs_renderClean hgood]
  have rhs : cleanChars (s ++ '/' :: c) =
      renderClean (rootedOf s) ((splitSegs c).foldl (cleanStep (rootedOf s))
        (runSegs (rootedOf s) (splitSegs s))) := by
    rw [cleanChars_of_ne_nil _ (fun h => hs (List.append_eq_nil.mp h).1),
        rootedOf_append _ _ hs, splitSegs_append, runSegs_append]
  rw [lhs, rhs]

theorem cleanChars_idem (p : List Char) : cleanChars (cleanChars p) = cleanChars p := by
  cases p with
  | nil => show cleanChars ['.'] = ['.']; decide
  | cons c cs =>
    have hgood : GoodStack (rootedOf (c :: cs)) (runSegs (rootedOf (c :: cs)) (splitSegs (c :: cs))) :=
      goodStack_runSegs _ _
    rw [cleanChars_of_ne_nil (c :: cs) (by simp),
        cleanChars_of_ne_nil _ (renderClean_ne_nil hgood),
        rootedOf_renderClean hgood, runSegs_renderClean hgood]

/-! ## Lemmas: `pathClean` and `goJoin` at the string level -/

theorem strEq_of_data {s t : String} (h : s.data = t.data) : s = t :=
  congrArg String.mk h

theorem strData_append (s t : String) : (s ++ t).data = s.data ++ t.data := rfl

theorem strNe_empty_iff (s : String) : s ≠ "" ↔ s.data ≠ [] := by
  constructor
  · intro h hd
    exact h (strEq_of_data (by simpa using hd))
  · intro h hs
    exact h (by simp [hs])

theorem pathClean_data (s : String) : (pathClean s).data = cleanChars s.data := rfl

theorem pathClean_ne_empty (s : String) : pathClean s ≠ "" := by
  rw [strNe_empty_iff, pathClean_data]
  exact cleanChars_ne_nil _

theorem pathClean_idem (s : String) : pathClean (pathClean s) = pathClean s :=
  strEq_of_data (by rw [pathClean_data, pathClean_data]; exact cleanChars_idem _)

theorem slash_data_append (a b : String) : (a ++ "/" ++ b).data = a.data ++ '/' :: b.data := by
  rw [strData_append, strData_append]
  simp

theorem pathClean_pre (s c : String) (hs : s ≠ "") :
    pathClean (pathClean s ++ "/" ++ c) = pathClean (s ++ "/" ++ c) := by
  apply strEq_of_data
  rw [pathClean_data, pathClean_data, slash_data_append, slash_data_append, pathClean_data]
  exact cleanChars_pre s.data c.data ((strNe_empty_iff s).mp hs)

theorem joinSlash_cons_cons (x y : String) (ys : List String) :
    joinSlash (x :: y :: ys) = x ++ "/" ++ joinSlash (y :: ys) := rfl

theorem strAppend_assoc (a b c : String) : a ++ b ++ c = a ++ (b ++ c) :=
  strEq_of_data (by rw [strData_append, strData_append, strData_append, strData_append,
    List.append_assoc])

theorem joinSlash_append (xs ys : List String) (h1 : xs ≠ []) (h2 : ys ≠ []) :
    joinSlash (xs ++ ys) = joinSlash xs ++ "/" ++ joinSlash ys := by
  induction xs with
  | nil => exact absurd rfl h1
  | cons x xs ih =>
    cases xs with
    | nil =>
      obtain ⟨y, ys', rfl⟩ := List.exists_cons_of_ne_nil h2
      rfl
    | cons x2 xs2 =>
      have ih' := ih (by simp)
      rw [List.cons_append] at ih'
      rw [List.cons_append, List.cons_append]
      conv_lhs => rw [joinSlash_cons_cons]
      rw [ih']
      conv_rhs => rw [joinSlash_cons_cons]
      simp [strAppend_assoc]

theorem joinSlash_ne_empty (x : String) (xs : List String) (hx : x ≠ "") :
    joinSlash (x :: xs) ≠ "" := by
  cases xs with
  | nil => exact hx
  | cons y ys =>
    rw [joinSlash_cons_cons, strNe_empty_iff, slash_data_append]
    simp

theorem goJoin_cons_ne (e : String) (rest : List String) (he : e ≠ "") :
    goJoin (e :: rest) = pathClean (joinSlash (e :: rest)) := by
  simp [goJoin, he]

theorem goJoin_flat (xs ys : List String) : goJoin (goJoin xs :: ys) = goJoin (xs ++ ys) := by
  induction xs with
  | nil => simp [goJoin]
  | cons e rest ih =>
    by_cases he : e = ""
    · subst he
      rw [show goJoin ("" :: rest) = goJoin rest from by simp [goJoin], ih]
      rfl
    · rw [goJoin_cons_ne e rest he]
      have hP : pathClean (joinSlash (e :: rest)) ≠ "" := pathClean_ne_empty _
      rw [goJoin_cons_ne _ ys hP]
      cases ys with
      | nil =>
        show pathClean (pathClean (joinSlash (e :: rest))) = goJoin ((e :: rest) ++ [])
        rw [pathClean_idem, List.append_nil, goJoin_cons_ne e rest he]
      | cons y ys' =>
        rw [joinSlash_cons_cons, pathClean_pre _ _ (joinSlash_ne_empty e rest he),
            ← joinSlash_append (e :: rest) (y :: ys') (by simp) (by simp),
            show (e :: rest) ++ y :: ys' = e :: (rest ++ y :: ys') from rfl,
            goJoin_cons_ne _ _ he]

theorem goJoin_pair_empty_iff (a b : String) : goJoin [a, b] = "" ↔ a = "" ∧ b = "" := by
  constructor
  · intro h
    by_cases ha : a = ""
    · subst ha
      by_cases hb : b = ""
      · exact ⟨rfl, hb⟩
      · rw [show goJoin ["", b] = goJoin [b] from by simp [goJoin],
            goJoin_cons_ne b [] hb] at h
        exact absurd h (pathClean_ne_empty _)
    · rw [goJoin_cons_ne a [b] ha] at h
      exact absurd h (pathClean_ne_empty _)
  · rintro ⟨rfl, rfl⟩
    rfl

/-! ## Lemmas: the manifest loader -/

theorem indexScan_ok_keys (us : List Upstream) (seen keys : List String)
    (h : indexScan us seen = .ok keys) : keys = seen ++ us.map Upstream.Identifier := by
  induction us generalizing seen with
  | nil =>
    simp only [indexScan, Except.ok.injEq] at h
    simp [← h]
  | cons u rest ih =>
    by_cases hm : u.Identifier ∈ seen
    · simp [indexScan, hm] at h
    · simp only [indexScan, hm, if_false, if_neg] at h
      rw [ih _ h]
      simp

theorem indexScan_ok_of_nodup (us : List Upstream) (seen : List String)
    (h : (seen ++ us.map Upstream.Identifier).Nodup) :
    indexScan us seen = .ok (seen ++ us.map Upstream.Identifier) := by
  induction us generalizing seen with
  | nil => simp [indexScan]
  | cons u rest ih =>
    have hm : u.Identifier ∉ seen := by
      intro hmem
      exact (List.disjoint_of_nodup_append h) hmem (by simp)
    have hre : seen ++ (u.Identifier :: rest.map Upstream.Identifier) =
        (seen ++ [u.Identifier]) ++ rest.map Upstream.Identifier := by simp
    simp only [indexScan, hm, if_neg, if_false]
    rw [List.map_cons, hre] at h ⊢
    exact ih _ h

theorem indexScan_error_of_dup (us : List Upstream) (seen : List String)
    (hseen : seen.Nodup) (h : ¬ (seen ++ us.map Upstream.Identifier).Nodup) :
    ∃ d, 2 ≤ (seen ++ us.map Upstream.Identifier).count d ∧
      indexScan us seen = .error (.duplicateUpstreamIdentifier d) := by
  induction us generalizing seen with
  | nil => simp at h; exact absurd hseen h
  | cons u rest ih =>
    by_cases hm : u.Identifier ∈ seen
    · refine ⟨u.Identifier, ?_, by simp [indexScan, hm]⟩
      rw [List.count_append]
      have h1 : 0 < seen.count u.Identifier := List.count_pos_iff.mpr hm
      have h2 : 0 < (List.map Upstream.Identifier (u :: rest)).count u.Identifier := by
        simp [List.count_cons]
      omega
    · have hre : seen ++ (List.map Upstream.Identifier (u :: rest)) =
          (seen ++ [u.Identifier]) ++ rest.map Upstream.Identifier := by simp
      have hseen' : (seen ++ [u.Identifier]).Nodup := by
        rw [List.nodup_append]
        refine ⟨hseen, List.nodup_singleton _, ?_⟩
        intro a ha hb
        rw [List.mem_singleton] at hb
        subst hb
        exact hm ha
      have h' : ¬ ((seen ++ [u.Identifier]) ++ rest.map Upstream.Identifier).Nodup := by
        rw [← hre]; exact h
      obtain ⟨d, hc, herr⟩ := ih _ hseen' h'
      refine ⟨d, ?_, ?_⟩
      · rw [hre]; exact hc
      · simp only [indexScan, hm, if_neg, if_false]
        exact herr

theorem normalizeManifest_ids (dm : Manifest) :
    (normalizeManifest dm).Upstreams.map Upstream.Identifier =
      dm.Upstreams.map Upstream.Identifier := by
  show (dm.Upstreams.map _).map Upstream.Identifier = _
  rw [List.map_map]
  rfl

theorem loadManifest_ok_iff (dm : Manifest) :
    (∃ m, loadManifest dm = .ok m) ↔ (dm.Upstreams.map Upstream.Identifier).Nodup := by
  constructor
  · rintro ⟨m, hm⟩
    unfold loadManifest at hm
    by_contra hnd
    obtain ⟨d, _, herr⟩ := indexScan_error_of_dup (normalizeManifest dm).Upstreams []
      List.nodup_nil (by simpa [normalizeManifest_ids] using hnd)
    rw [herr] at hm
    simp at hm
  · intro hnd
    exact ⟨_, by
      unfold loadManifest
      rw [indexScan_ok_of_nodup _ [] (by simpa [normalizeManifest_ids] using hnd)]⟩

theorem loadManifest_error_of_dup (dm : Manifest)
    (h : ¬ (dm.Upstreams.map Upstream.Identifier).Nodup) :
    ∃ d, 2 ≤ (dm.Upstreams.map Upstream.Identifier).count d ∧
      loadManifest dm = .error (.duplicateUpstreamIdentifier d) := by
  obtain ⟨d, hc, herr⟩ := indexScan_error_of_dup (normalizeManifest dm).Upstreams []
    List.nodup_nil (by simpa [normalizeManifest_ids] using h)
  refine ⟨d, by simpa [normalizeManifest_ids] using hc, ?_⟩
  unfold loadManifest
  rw [herr]

theorem mapGet_keyMap (keys : List String) (v : Upstream) (q : String) :
    mapGet (keys.map (fun k => (k, v))) q = if q ∈ keys then some v else none := by
  induction keys with
  | nil => simp [mapGet]
  | cons k ks ih =>
    simp only [List.map_cons, mapGet]
    by_cases hk : k = q
    · subst hk
      simp
    · rw [ih]
      by_cases hq : q ∈ ks <;> simp [hk, hq, Ne.symm hk]

/-- After a successful load, the keys of the identifier index are exactly
the manifest's upstream identifiers. -/
theorem loadManifest_index_lookup (dm m : Manifest) (h : loadManifest dm = .ok m) (q : String) :
    (mapGet m.upstreamIndex q).isSome ↔ q ∈ m.Upstreams.map Upstream.Identifier := by
  unfold loadManifest at h
  cases hscan : indexScan (normalizeManifest dm).Upstreams [] with
  | error e => rw [hscan] at h; simp at h
  | ok keys =>
    rw [hscan] at h
    have hkeys := indexScan_ok_keys _ _ _ hscan
    simp only [List.nil_append] at hkeys
    have h' : ({ normalizeManifest dm with upstreamIndex :=
        match (normalizeManifest dm).Upstreams.getLast? with
        | none => []
        | some lastU => keys.map (fun k => (k, lastU)) } : Manifest) = m := Except.ok.inj h
    subst h'
    cases hlast : (normalizeManifest dm).Upstreams.getLast? with
    | none =>
      have hnil : (normalizeManifest dm).Upstreams = [] := List.getLast?_eq_none_iff.mp hlast
      simp [hlast, hnil, mapGet]
    | some lastU =>
      simp only [hlast, hkeys]
      show (mapGet (((normalizeManifest dm).Upstreams.map Upstream.Identifier).map
        (fun k => (k, lastU))) q).isSome ↔ _
      rw [mapGet_keyMap]
      by_cases hq : q ∈ (normalizeManifest dm).Upstreams.map Upstream.Identifier <;> simp [hq]

/-! ## Lemmas: option merging and the middleware map -/

theorem mapGet_mapSet_self {α : Type} (l : List (String × α)) (k : String) (v : α) :
    mapGet (mapSet l k v) k = some v := by
  induction l with
  | nil => simp [mapSet, mapGet]
  | cons p rest ih =>
    obtain ⟨k', v'⟩ := p
    by_cases hk : k' = k
    · simp [mapSet, mapGet, hk]
    · simp [mapSet, mapGet, hk, ih]

theorem mapGet_mapSet_ne {α : Type} (l : List (String × α)) (k j : String) (v : α)
    (h : j ≠ k) : mapGet (mapSet l k v) j = mapGet l j := by
  have hkj : ¬ (k = j) := fun he => h he.symm
  induction l with
  | nil => simp [mapSet, mapGet, hkj]
  | cons p rest ih =>
    obtain ⟨k', v'⟩ := p
    by_cases hk : k' = k
    · subst hk
      simp [mapSet, mapGet, hkj]
    · simp only [mapSet, hk, if_false, if_neg]
      by_cases hj : k' = j <;> simp [mapGet, hj, ih]

theorem findBadMWKey_some (m : Manifest) (mw : List (String × List MiddlewareM))
    (h : ∃ p ∈ mw, mapGet m.upstreamIndex p.1 = none) :
    ∃ k, findBadMWKey m mw = some k ∧ mapGet m.upstreamIndex k = none ∧
      ∃ ms, (k, ms) ∈ mw := by
  induction mw with
  | nil => simp at h
  | cons p rest ih =>
    obtain ⟨k0, ms0⟩ := p
    by_cases hk : (mapGet m.upstreamIndex k0).isNone
    · exact ⟨k0, by simp [findBadMWKey, hk], Option.isNone_iff_eq_none.mp hk,
        ms0, List.mem_cons_self _ _⟩
    · have h' : ∃ p ∈ rest, mapGet m.upstreamIndex p.1 = none := by
        obtain ⟨p, hp, hnone⟩ := h
        rcases List.mem_cons.mp hp with rfl | hp'
        · exact absurd (Option.isNone_iff_eq_none.mpr hnone) hk
        · exact ⟨p, hp', hnone⟩
      obtain ⟨k, hfind, hnone, ms, hmem⟩ := ih h'
      exact ⟨k, by simp [findBadMWKey, hk, hfind], hnone, ms, List.mem_cons_of_mem _ hmem⟩

/-! ## Lemmas: the forwarding factory and the mounter -/

theorem newReverseProxy_missingScheme (u : Upstream) (cfg : mountConfig) (dest : URLModel)
    (hp : urlParse u.Destination = .ok dest) (hs : dest.Scheme = "") :
    newReverseProxy u cfg = .error (.missingScheme u.Destination) := by
  unfold newReverseProxy
  rw [hp]
  simp [hs]

theorem newReverseProxy_parseError (u : Upstream) (cfg : mountConfig) (e : String)
    (hp : urlParse u.Destination = .error e) :
    newReverseProxy u cfg = .error (.urlParseFailure u.Destination e) := by
  unfold newReverseProxy
  rw [hp]

theorem newReverseProxy_ok_inv (u : Upstream) (cfg : mountConfig) (rp : ReverseProxyM)
    (h : newReverseProxy u cfg = .ok rp) :
    ∃ dest, urlParse u.Destination = .ok dest ∧ dest.Scheme ≠ "" ∧
      rp = { target := dest
             director := setDirector (singleHostDirector dest) dest.Host cfg.requestModifier
             transport := cfg.transport
             errorLog := some cfg.errorLog
             bufferPool := cfg.bufferPool
             modifyResponse := cfg.responseModifier
             errorHandler := cfg.errorHandler
             flushIntervalNS := u.FlushIntervalMS * 1000000 } := by
  unfold newReverseProxy at h
  cases hp : urlParse u.Destination with
  | error e => rw [hp] at h; exact absurd h (by simp)
  | ok dest =>
    rw [hp] at h
    by_cases hs : dest.Scheme = ""
    · simp [hs] at h
    · simp only [hs, if_neg, if_false] at h
      exact ⟨dest, rfl, hs, (Except.ok.injEq _ _ ▸ h).symm⟩

theorem mountAll_ok_cons (rootPath : String) (cfg : mountConfig) (u : Upstream)
    (rest : List Upstream) (regs : List Registration)
    (h : mountAll rootPath cfg (u :: rest) = .ok regs) :
    ∃ rp more, newReverseProxy u cfg = .ok rp ∧ mountAll rootPath cfg rest = .ok more ∧
      regs = groupRegs cfg u (mountRegs rootPath u cfg rp) ++ more := by
  unfold mountAll mount at h
  cases hrp : newReverseProxy u cfg with
  | error e => rw [hrp] at h; exact absurd h (by simp)
  | ok rp =>
    rw [hrp] at h
    cases hrest : mountAll rootPath cfg rest with
    | error e => rw [hrest] at h; exact absurd h (by simp)
    | ok more =>
      rw [hrest] at h
      simp only [Except.ok.injEq] at h
      exact ⟨rp, more, rfl, rfl, h.symm⟩

theorem mountAll_ok_mem (rootPath : String) (cfg : mountConfig) (us : List Upstream)
    (regs : List Registration) (h : mountAll rootPath cfg us = .ok regs)
    (u : Upstream) (hu : u ∈ us) :
    ∃ rp, newReverseProxy u cfg = .ok rp ∧
      ∀ reg ∈ groupRegs cfg u (mountRegs rootPath u cfg rp), reg ∈ regs := by
  induction us generalizing regs with
  | nil => simp at hu
  | cons u0 rest ih =>
    obtain ⟨rp, more, hrp, hrest, rfl⟩ := mountAll_ok_cons _ _ _ _ _ h
    rcases List.mem_cons.mp hu with rfl | hu'
    · exact ⟨rp, hrp, fun reg hreg => List.mem_append_left _ hreg⟩
    · obtain ⟨rp', hrp', hsub⟩ := ih _ hrest hu'
      exact ⟨rp', hrp', fun reg hreg => List.mem_append_right _ (hsub reg hreg)⟩

theorem mountAll_ok_forall (rootPath : String) (cfg : mountConfig) (us : List Upstream)
    (regs : List Registration) (h : mountAll rootPath cfg us = .ok regs)
    (reg : Registration) (hreg : reg ∈ regs) :
    ∃ u rp, u ∈ us ∧ newReverseProxy u cfg = .ok rp ∧
      reg ∈ groupRegs cfg u (mountRegs rootPath u cfg rp) := by
  induction us generalizing regs with
  | nil =>
    unfold mountAll at h
    simp only [Except.ok.injEq] at h
    subst h
    simp at hreg
  | cons u0 rest ih =>
    obtain ⟨rp, more, hrp, hrest, rfl⟩ := mountAll_ok_cons _ _ _ _ _ h
    rcases List.mem_append.mp hreg with hl | hr
    · exact ⟨u0, rp, List.mem_cons_self _ _, hrp, hl⟩
    · obtain ⟨u, rp', hu, hrp', hmem⟩ := ih _ hrest hr
      exact ⟨u, rp', List.mem_cons_of_mem _ hu, hrp', hmem⟩

theorem New_ok_inv (m : Manifest) (opts : List MountOption) (proxy : Proxy)
    (h : New m opts = .ok proxy) :
    findBadMWKey m (applyOpts opts).middleware = none ∧
    mountAll (goJoin [(applyOpts opts).root, m.PrefixPath]) (applyOpts opts) m.Upstreams =
      .ok proxy.regs ∧
    proxy.root = goJoin [(applyOpts opts).root, m.PrefixPath] ∧
    proxy.manifest = m ∧
    proxy.notFoundHandler = (applyOpts opts).notFoundHandler := by
  unfold New at h
  cases hb : findBadMWKey m (applyOpts opts).middleware with
  | some k => rw [hb] at h; exact absurd h (by simp)
  | none =>
    rw [hb] at h
    cases hm : mountAll (goJoin [(applyOpts opts).root, m.PrefixPath]) (applyOpts opts)
        m.Upstreams with
    | error e => rw [hm] at h; exact absurd h (by simp)
    | ok regs =>
      rw [hm] at h
      simp only [Except.ok.injEq] at h
      subst h
      exact ⟨rfl, rfl, rfl, rfl, rfl⟩

/-! ## Lemmas: registrations and prefix stripping -/

theorem mem_mountRegs_intro (rootPath : String) (u : Upstream) (cfg : mountConfig)
    (rp : ReverseProxyM) (rt : Route) (method : String)
    (hrt : rt ∈ u.Routes) (hm : method ∈ rt.Methods) :
    ({ method := method
       pattern := goJoin [goJoin [rootPath, u.PrefixPath], rt.Path]
       handler := stripPfxHandler (goJoin [rootPath, u.PrefixPath])
         (proxyHandler rp (observeClosure cfg method rt (goJoin [rootPath, u.PrefixPath]) u)) } :
      Registration) ∈ mountRegs rootPath u cfg rp := by
  unfold mountRegs
  exact List.mem_flatMap.mpr ⟨rt, hrt, List.mem_map.mpr ⟨method, hm, rfl⟩⟩

theorem mem_mountRegs_elim (rootPath : String) (u : Upstream) (cfg : mountConfig)
    (rp : ReverseProxyM) (reg : Registration) (h : reg ∈ mountRegs rootPath u cfg rp) :
    ∃ rt method, rt ∈ u.Routes ∧ method ∈ rt.Methods ∧
      reg = { method := method
              pattern := goJoin [goJoin [rootPath, u.PrefixPath], rt.Path]
              handler := stripPfxHandler (goJoin [rootPath, u.PrefixPath])
                (proxyHandler rp (observeClosure cfg method rt (goJoin [rootPath, u.PrefixPath]) u)) } := by
  unfold mountRegs at h
  obtain ⟨rt, hrt, hmem⟩ := List.mem_flatMap.mp h
  obtain ⟨method, hmeth, heq⟩ := List.mem_map.mp hmem
  exact ⟨rt, method, hrt, hmeth, heq.symm⟩

theorem strEmpty_append (s : String) : "" ++ s = s :=
  strEq_of_data rfl

theorem strData_ne_nil (s : String) (h : s ≠ "") : s.data ≠ [] :=
  (strNe_empty_iff s).mp h

/-- `http.StripPrefix` strips exactly its prefix argument: a request whose
path is the prefix followed by anything is handed on with exactly the
remainder as its path. -/
theorem stripPfx_strips (pfx : String) (h : HandlerM) (r : Request) (rest : String)
    (hr : r.Path = pfx ++ rest) :
    stripPfxHandler pfx h r = h { r with Path := rest } := by
  by_cases hp : pfx = ""
  · subst hp
    rw [strEmpty_append] at hr
    unfold stripPfxHandler
    rw [if_pos rfl]
    have : ({ r with Path := rest } : Request) = r := by
      rw [← hr]
    rw [this]
  · unfold stripPfxHandler
    rw [if_neg hp]
    have hpre : pfx.data.isPrefixOf r.Path.data = true := by
      rw [hr, strData_append, List.isPrefixOf_iff_prefix]
      exact List.prefix_append _ _
    have hdrop : r.Path.data.drop pfx.data.length = rest.data := by
      rw [hr, strData_append, List.drop_left]
    have hlen : 0 < pfx.data.length := List.length_pos.mpr (strData_ne_nil pfx hp)
    unfold trimPre
    rw [if_pos hpre, hdrop]
    have hshort : rest.data.length < r.Path.data.length := by
      rw [hr, strData_append, List.length_append]
      omega
    rw [if_pos hshort]

/-! ## Concrete fixtures (testdata/routing.hcl with the destination fixed) -/

/-- The `accounts` upstream of testdata/routing.hcl, destination fixed to
"http://basic.local". -/
def exAccounts : Upstream :=
  { Identifier := "accounts"
    Destination := "http://basic.local"
    Owner := "Identity <team-identity@company.com>"
    PrefixPath := "/private"
    Routes := [ { Methods := ["GET"], Path := "/accounts/{id}" },
                { Methods := ["GET"], Path := "/accounts" } ] }

/-- testdata/routing.hcl: manifest prefix "/api/v2" over the `accounts`
upstream. -/
def exRoutingManifest : Manifest :=
  { PrefixPath := "/api/v2", Upstreams := [exAccounts] }

/-- The same upstream with only the parameterized route, as claim C1's
example describes it. -/
def exAccountsOnlyParam : Upstream :=
  { exAccounts with Routes := [ { Methods := ["GET"], Path := "/accounts/{id}" } ] }

def exOnlyParamManifest : Manifest :=
  { PrefixPath := "/api/v2", Upstreams := [exAccountsOnlyParam] }

/-- The normalized `accounts` upstream as `loadManifest` returns it. -/
def exAccountsN : Upstream :=
  { exAccounts with Annotations := some [] }

/-- What `loadManifest` produces for `exRoutingManifest`. -/
def exLoadedManifest : Manifest :=
  { Annotations := some []
    PrefixPath := "/api/v2"
    Upstreams := [exAccountsN]
    upstreamIndex := [("accounts", exAccountsN)] }

/-- testdata/duplicate_identifier.hcl: two upstreams labelled "widgets". -/
def dupManifest : Manifest :=
  { Upstreams := [ { Identifier := "widgets", Destination := "http://widgets.local"
                     Owner := "Team A <team-a@company.com>"
                     Routes := [ { Methods := ["GET"], Path := "/widgets" } ] },
                   { Identifier := "widgets", Destination := "http://bobs.local"
                     Owner := "Team B <team-b@company.com>"
                     Routes := [ { Methods := ["GET"], Path := "/bobs" } ] } ] }

/-- testdata/basic_destination.hcl with destination "noscheme.local". -/
def noschemeUp : Upstream :=
  { Identifier := "accounts"
    Destination := "noscheme.local"
    Owner := "Identity <team-identity@company.com>"
    Routes := [ { Methods := ["GET"], Path := "/accounts" } ] }

def noschemeManifest : Manifest := { Upstreams := [noschemeUp] }

/-- A GET request as the dispatcher sees it. -/
def getReq (p : String) : Request :=
  { Method := "GET", Path := p, Host := "proxy.example.com" }

/-- The RouteInfo the observation hook receives for the plain `/accounts`
route of the routing fixture (matching the repository's own test). -/
def obsInfoAccounts : RouteInfo :=
  { RouteMethod := "GET"
    RoutePath := "/accounts"
    RoutePfx := "/api/v2/private"
    UpstreamHost := "http://basic.local"
    UpstreamIdentifier := "accounts"
    UpstreamOwner := "Identity <team-identity@company.com>" }

/-! ## Claim C2 -/

/-- C2: for every decoded manifest holding two upstreams with the same
identifier, `LoadManifest` fails with a `DuplicateUpstreamIdentifier` error
naming a colliding identifier (one occurring at least twice) and returns no
Manifest; a manifest whose upstream identifiers are pairwise distinct loads
successfully. -/
theorem C2_duplicateIdentifier (dm : Manifest) :
    (¬ (dm.Upstreams.map Upstream.Identifier).Nodup →
      ∃ d, 2 ≤ (dm.Upstreams.map Upstream.Identifier).count d ∧
        loadManifest dm = .error (.duplicateUpstreamIdentifier d) ∧
        ∀ m, loadManifest dm ≠ .ok m) ∧
    ((dm.Upstreams.map Upstream.Identifier).Nodup → ∃ m, loadManifest dm = .ok m) := by
  constructor
  · intro hdup
    obtain ⟨d, hc, herr⟩ := loadManifest_error_of_dup dm hdup
    exact ⟨d, hc, herr, fun m hok => by rw [herr] at hok; exact absurd hok (by simp)⟩
  · exact (loadManifest_ok_iff dm).mpr

/-- C2 witness: the duplicate-identifier fixture fails naming "widgets";
the routing fixture loads. -/
theorem C2_duplicateIdentifier_witness :
    (¬ (dupManifest.Upstreams.map Upstream.Identifier).Nodup) ∧
    loadManifest dupManifest = .error (.duplicateUpstreamIdentifier "widgets") ∧
    (exRoutingManifest.Upstreams.map Upstream.Identifier).Nodup ∧
    (∃ m, loadManifest exRoutingManifest = .ok m) := by
  refine ⟨by decide, by decide, by decide, ?_⟩
  exact (C2_duplicateIdentifier exRoutingManifest).2 (by decide)

/-! ## Claim C3 -/

/-- C3: an upstream whose destination parses as a URL with an empty scheme
makes the forwarding factory fail with `MissingScheme` embedding the raw
destination string; a destination that does not parse at all is also a hard
failure; either way, for an upstream of the manifest, `New` never returns a
dispatcher. -/
theorem C3_missingScheme :
    (∀ (u : Upstream) (cfg : mountConfig) (dest : URLModel),
      urlParse u.Destination = .ok dest → dest.Scheme = "" →
        newReverseProxy u cfg = .error (.missingScheme u.Destination)) ∧
    (∀ (u : Upstream) (cfg : mountConfig) (e : String),
      urlParse u.Destination = .error e →
        newReverseProxy u cfg = .error (.urlParseFailure u.Destination e)) ∧
    (∀ (m : Manifest) (opts : List MountOption) (u : Upstream),
      u ∈ m.Upstreams →
      ((∃ dest, urlParse u.Destination = .ok dest ∧ dest.Scheme = "") ∨
        (∃ e, urlParse u.Destination = .error e)) →
      ∀ proxy, New m opts ≠ .ok proxy) := by
  refine ⟨newReverseProxy_missingScheme, newReverseProxy_parseError, ?_⟩
  intro m opts u hu hbad proxy hok
  obtain ⟨_, hmount, _, _, _⟩ := New_ok_inv m opts proxy hok
  obtain ⟨rp, hrp, _⟩ := mountAll_ok_mem _ _ _ _ hmount u hu
  rcases hbad with ⟨dest, hp, hs⟩ | ⟨e, hp⟩
  · rw [newReverseProxy_missingScheme u _ dest hp hs] at hrp
    exact absurd hrp (by simp)
  · rw [newReverseProxy_parseError u _ e hp] at hrp
    exact absurd hrp (by simp)

/-- C3 witness: destination "noscheme.local" parses with an empty scheme,
the factory fails with `MissingScheme "noscheme.local"`, and compilation of
the fixture manifest returns no dispatcher. -/
theorem C3_missingScheme_witness :
    urlParse "noscheme.local" = .ok { Scheme := "", Host := "", Path := "noscheme.local" } ∧
    newReverseProxy noschemeUp (applyOpts []) = .error (.missingScheme "noscheme.local") ∧
    newError noschemeManifest [] = some (.missingScheme "noscheme.local") ∧
    ∀ proxy, New noschemeManifest [] ≠ .ok proxy := by
  refine ⟨by decide, ?_, by decide, ?_⟩
  · exact C3_missingScheme.1 noschemeUp (applyOpts [])
      { Scheme := "", Host := "", Path := "noscheme.local" } (by decide) rfl
  · exact fun proxy => C3_missingScheme.2.2 noschemeManifest [] noschemeUp
      (List.mem_cons_self _ _)
      (Or.inl ⟨{ Scheme := "", Host := "", Path := "noscheme.local" }, by decide, rfl⟩) proxy

/-! ## Claim C9 -/

def upstreamA : Upstream :=
  { Identifier := "a", Destination := "http://a.local", Owner := "team-a" }

def upstreamB : Upstream :=
  { Identifier := "b", Destination := "http://b.local", Owner := "team-b" }

def abManifest : Manifest := { Upstreams := [upstreamA, upstreamB] }

def upstreamAN : Upstream := { upstreamA with Annotations := some [] }

def upstreamBN : Upstream := { upstreamB with Annotations := some [] }

/-- C9 evaluated at the failing input: loading a manifest with the two
distinct upstreams "a" and "b" succeeds, but the identifier index maps BOTH
keys — "a" included — to upstream "b"'s data.  `LoadManifest` stores `&u`,
the address of the single `range` loop variable (the module declares
`go 1.16`, so the variable is one cell reused across iterations); after the
loop every stored pointer dereferences to that cell's final value, the last
upstream.  This contradicts the claim (and the field's own comment, "Index
to lookup Upstream by identifier"): the key set is right, but "a" is not
mapped to its own Upstream data. -/
theorem C9_indexAliasing :
    loadManifest abManifest =
      .ok { Annotations := some []
            PrefixPath := ""
            Upstreams := [upstreamAN, upstreamBN]
            upstreamIndex := [("a", upstreamBN), ("b", upstreamBN)] } ∧
    upstreamBN ≠ upstreamAN := by
  decide

/-! ## Claim C10 -/

/-- C10: later `WithUpstreamMiddleware` options for the same identifier
replace earlier ones — after applying the option for `i` with `m1` and then
with `m2`, the effective configuration maps `i` to exactly `m2` (both on an
arbitrary configuration and through `applyOpts`) — and an option for `i`
leaves every other identifier's entry unchanged. -/
theorem C10_middlewareReplace (c : mountConfig) (i j : String)
    (m1 m2 ms : List MiddlewareM) (hj : j ≠ i) :
    mapGet ((WithUpstreamMiddleware i m2) ((WithUpstreamMiddleware i m1) c)).middleware i =
      some m2 ∧
    (∀ opts : List MountOption,
      mapGet (applyOpts (opts ++ [WithUpstreamMiddleware i m1,
        WithUpstreamMiddleware i m2])).middleware i = some m2) ∧
    mapGet ((WithUpstreamMiddleware i ms) c).middleware j = mapGet c.middleware j := by
  refine ⟨?_, ?_, ?_⟩
  · exact mapGet_mapSet_self _ _ _
  · intro opts
    have happ : applyOpts (opts ++ [WithUpstreamMiddleware i m1, WithUpstreamMiddleware i m2]) =
        (WithUpstreamMiddleware i m2) ((WithUpstreamMiddleware i m1) (applyOpts opts)) := by
      unfold applyOpts
      rw [List.foldl_append]
      rfl
    rw [happ]
    exact mapGet_mapSet_self _ _ _
  · exact mapGet_mapSet_ne _ _ _ _ hj

/-- C10 witness: at identifiers "a" ≠ "b" with concrete stacks, the later
option wins for "a" and "b" is untouched. -/
theorem C10_middlewareReplace_witness :
    mapGet ((WithUpstreamMiddleware "a" [fun h => h])
        ((WithUpstreamMiddleware "a" []) newMountConfig)).middleware "a" =
      some [fun h => h] ∧
    mapGet ((WithUpstreamMiddleware "a" [fun h => h]) newMountConfig).middleware "b" =
      mapGet newMountConfig.middleware "b" := by
  exact ⟨(C10_middlewareReplace newMountConfig "a" "b" [] [fun h => h] [fun h => h]
      (by decide)).1,
    (C10_middlewareReplace newMountConfig "a" "b" [] [fun h => h] [fun h => h]
      (by decide)).2.2⟩

/-! ## Claim C5 -/

/-- C5: if the configured per-upstream middleware map holds a key that is
not an upstream identifier of the loaded manifest, `New` fails with
`MissingUpstreamForMiddleware` carrying such a key, and no dispatcher is
ever returned.  The conclusion holds with no assumption on the upstreams'
destinations: the middleware check runs before any forwarding handler is
constructed or route registered, so even a manifest whose every destination
would fail the factory still reports the middleware error. -/
theorem C5_middlewareValidation (dm m : Manifest) (opts : List MountOption)
    (hload : loadManifest dm = .ok m)
    (k : String) (ms : List MiddlewareM)
    (hk : (k, ms) ∈ (applyOpts opts).middleware)
    (hnot : k ∉ m.Upstreams.map Upstream.Identifier) :
    ∃ k', (∃ ms', (k', ms') ∈ (applyOpts opts).middleware) ∧
      k' ∉ m.Upstreams.map Upstream.Identifier ∧
      New m opts = .error (.missingUpstreamForMiddleware k') ∧
      ∀ proxy, New m opts ≠ .ok proxy := by
  have hnone : mapGet m.upstreamIndex k = none := by
    cases hmg : mapGet m.upstreamIndex k with
    | none => rfl
    | some v =>
      exact absurd ((loadManifest_index_lookup dm m hload k).mp (by simp [hmg])) hnot
  obtain ⟨k', hfind, hnone', ms', hmem⟩ :=
    findBadMWKey_some m (applyOpts opts).middleware ⟨(k, ms), hk, hnone⟩
  have herr : New m opts = .error (.missingUpstreamForMiddleware k') := by
    unfold New
    rw [hfind]
  refine ⟨k', ⟨ms', hmem⟩, ?_, herr, ?_⟩
  · intro hmem'
    have hsome := (loadManifest_index_lookup dm m hload k').mpr hmem'
    rw [hnone'] at hsome
    simp at hsome
  · intro proxy hok
    rw [herr] at hok
    exact absurd hok (by simp)

/-- C5 witness: mounting the loaded routing fixture with a middleware stack
bound to the unknown identifier "nope" fails with
`MissingUpstreamForMiddleware "nope"`. -/
theorem C5_middlewareValidation_witness :
    loadManifest exRoutingManifest = .ok exLoadedManifest ∧
    "nope" ∉ exLoadedManifest.Upstreams.map Upstream.Identifier ∧
    New exLoadedManifest [WithUpstreamMiddleware "nope" []] =
      .error (.missingUpstreamForMiddleware "nope") := by
  refine ⟨by decide, by decide, ?_⟩
  obtain ⟨k', ⟨ms', hmem⟩, _, herr, _⟩ :=
    C5_middlewareValidation exRoutingManifest exLoadedManifest
      [WithUpstreamMiddleware "nope" []] (by decide) "nope" []
      (List.mem_singleton.mpr rfl) (by decide)
  have hk' : k' = "nope" := congrArg Prod.fst (List.mem_singleton.mp hmem)
  rw [hk'] at herr
  exact herr

/-! ## Claim C6 -/

/-- C6: `newMountConfig` defaults the error log to the discard sink; for a
proxy built by `newReverseProxy`, a transport error with no custom error
handler produces `502 Bad Gateway` and one log line on the configured sink
with no custom-handler invocation; with a custom handler configured, the
handler fully replaces that default (its status stands, nothing is logged);
and an error from the response modifier takes the same error path,
including through a configured custom handler. -/
theorem C6_errorHandling (u : Upstream) (cfg : mountConfig) (rp : ReverseProxyM)
    (h : newReverseProxy u cfg = .ok rp) (r : Request) (e : String) :
    newMountConfig.errorLog = .discard ∧
    (cfg.errorHandler = none →
      rp.deliver r (.error e) =
        .errored { status := 502, logged := [(cfg.errorLog, e)], customRan := [] }) ∧
    (∀ eh, cfg.errorHandler = some eh →
      rp.deliver r (.error e) =
        .errored { status := eh r e, logged := [], customRan := [e] }) ∧
    (∀ f resp e', cfg.responseModifier = some f → f resp = .error e' →
      cfg.errorHandler = none →
      rp.deliver r (.ok resp) =
        .errored { status := 502, logged := [(cfg.errorLog, e')], customRan := [] }) ∧
    (∀ f resp e' eh, cfg.responseModifier = some f → f resp = .error e' →
      cfg.errorHandler = some eh →
      rp.deliver r (.ok resp) =
        .errored { status := eh r e', logged := [], customRan := [e'] }) := by
  obtain ⟨dest, hp, hs, rfl⟩ := newReverseProxy_ok_inv u cfg rp h
  refine ⟨rfl, ?_, ?_, ?_, ?_⟩
  · intro hn
    simp [ReverseProxyM.deliver, ReverseProxyM.handleError, hn]
  · intro eh hsome
    simp [ReverseProxyM.deliver, ReverseProxyM.handleError, hsome]
  · intro f resp e' hf hfe hn
    simp [ReverseProxyM.deliver, ReverseProxyM.handleError, hf, hfe, hn]
  · intro f resp e' eh hf hfe hsome
    simp [ReverseProxyM.deliver, ReverseProxyM.handleError, hf, hfe, hsome]

/-- C6 witness: with default options, a transport failure yields 502 and
one line on the discard sink; with a teapot error handler configured, the
handler's status is observed and nothing is logged, also when the response
modifier fails. -/
theorem C6_errorHandling_witness :
    ∃ rp, newReverseProxy exAccounts (applyOpts []) = .ok rp ∧
      rp.deliver (getReq "/accounts") (.error "broken transport") =
        .errored { status := 502, logged := [(.discard, "broken transport")], customRan := [] } ∧
    ∃ rp2, newReverseProxy exAccounts
        (applyOpts [WithErrorHandler (fun _ _ => 418),
          WithResponseModifier (fun _ => .error "modifier failed")]) = .ok rp2 ∧
      rp2.deliver (getReq "/accounts") (.error "broken transport") =
        .errored { status := 418, logged := [], customRan := ["broken transport"] } ∧
      rp2.deliver (getReq "/accounts") (.ok { StatusCode := 200 }) =
        .errored { status := 418, logged := [], customRan := ["modifier failed"] } := by
  refine ⟨_, rfl, ?_, _, rfl, ?_, ?_⟩
  · exact (C6_errorHandling exAccounts (applyOpts []) _ rfl
      (getReq "/accounts") "broken transport").2.1 rfl
  · exact (C6_errorHandling exAccounts _ _ rfl
      (getReq "/accounts") "broken transport").2.2.1 (fun _ _ => 418) rfl
  · exact (C6_errorHandling exAccounts _ _ rfl
      (getReq "/accounts") "broken transport").2.2.2.2
      (fun _ => .error "modifier failed") { StatusCode := 200 } "modifier failed"
      (fun _ _ => 418) rfl rfl rfl

/-! ## Claim C8 -/

/-- C8: the director installed by `newReverseProxy` first runs the
single-host base director (which by itself leaves the inbound `r.Host`
unchanged), then unconditionally overrides the request's host with the
destination URL's host, and only then runs the configured request modifier;
the host rewrite happens whether or not a modifier is configured. -/
theorem C8_director (u : Upstream) (cfg : mountConfig) (rp : ReverseProxyM)
    (dest : URLModel) (h : newReverseProxy u cfg = .ok rp)
    (hp : urlParse u.Destination = .ok dest) (r : Request) :
    rp.director r = setDirector (singleHostDirector dest) dest.Host cfg.requestModifier r ∧
    (singleHostDirector dest r).Host = r.Host ∧
    (cfg.requestModifier = none →
      rp.director r = { singleHostDirector dest r with Host := dest.Host } ∧
      (rp.director r).Host = dest.Host) ∧
    (∀ f, cfg.requestModifier = some f →
      rp.director r = f { singleHostDirector dest r with Host := dest.Host }) := by
  obtain ⟨dest', hp', _, rfl⟩ := newReverseProxy_ok_inv u cfg rp h
  rw [hp] at hp'
  have hd : dest = dest' := Except.ok.inj hp'
  subst hd
  refine ⟨rfl, rfl, ?_, ?_⟩
  · intro hn
    constructor
    · simp [setDirector, hn]
    · simp [setDirector, hn]
  · intro f hf
    simp [setDirector, hf]

/-- C8 witness: for the routing fixture's upstream, the director rewrites
the host to "basic.local" regardless of the inbound host, and a configured
modifier observes the already-rewritten request. -/
theorem C8_director_witness :
    ∃ rp, newReverseProxy exAccounts (applyOpts []) = .ok rp ∧
      (rp.director (getReq "/accounts")).Host = "basic.local" ∧
      (singleHostDirector { Scheme := "http", Host := "basic.local", Path := "" }
        (getReq "/accounts")).Host = "proxy.example.com" ∧
    ∃ rp2, newReverseProxy exAccounts
        (applyOpts [WithRequestModifier (fun r => { r with Headers := [("Direction", "in")] })]) =
          .ok rp2 ∧
      rp2.director (getReq "/accounts") =
        { getReq "/accounts" with
            Host := "basic.local"
            URLScheme := "http"
            URLHost := "basic.local"
            Headers := [("Direction", "in")] } := by
  refine ⟨_, rfl, ?_, by decide, _, rfl, ?_⟩
  · exact ((C8_director exAccounts (applyOpts []) _
      { Scheme := "http", Host := "basic.local", Path := "" } rfl (by decide)
      (getReq "/accounts")).2.2.1 rfl).2
  · have := (C8_director exAccounts
      (applyOpts [WithRequestModifier (fun r => { r with Headers := [("Direction", "in")] })]) _
      { Scheme := "http", Host := "basic.local", Path := "" } rfl (by decide)
      (getReq "/accounts")).2.2.2
      (fun r => { r with Headers := [("Direction", "in")] }) rfl
    rw [this]
    decide

/-! ## Claim C4 -/

theorem goJoin_flat3 (a b c : String) :
    goJoin [goJoin [a, b], c] = goJoin [a, b, c] := by
  simpa using goJoin_flat [a, b] [c]

theorem goJoin_flat4 (a b c d : String) :
    goJoin [goJoin [goJoin [a, b], c], d] = goJoin [a, b, c, d] := by
  rw [goJoin_flat3]
  simpa using goJoin_flat [a, b] [c, d]

theorem groupRegs_of_empty (cfg : mountConfig) (hmw : cfg.middleware = [])
    (u : Upstream) (regs : List Registration) : groupRegs cfg u regs = regs := by
  unfold groupRegs
  rw [hmw]
  rfl

theorem stripPfx_cases (pfx : String) (h : HandlerM) (r : Request) :
    stripPfxHandler pfx h r = { events := [], outcome := .stripNotFound } ∨
    ∃ r', stripPfxHandler pfx h r = h r' := by
  by_cases hp : pfx = ""
  · right
    exact ⟨r, by unfold stripPfxHandler; rw [if_pos hp]⟩
  · have hbody : stripPfxHandler pfx h r =
        (if (trimPre r.Path pfx).data.length < r.Path.data.length
         then h { r with Path := trimPre r.Path pfx }
         else { events := [], outcome := .stripNotFound }) := by
      unfold stripPfxHandler
      rw [if_neg hp]
    by_cases hlt : (trimPre r.Path pfx).data.length < r.Path.data.length
    · right
      exact ⟨{ r with Path := trimPre r.Path pfx }, by rw [hbody, if_pos hlt]⟩
    · left
      rw [hbody, if_neg hlt]

/-- C4 (amended): with an observation hook configured (and no middleware
interposed), every served request either causes no events at all — it
matched no route, the custom not-found handler answered, or the mandatory
prefix strip rejected it, and in each of these nothing is forwarded and the
hook is not invoked — or it causes exactly one hook invocation immediately
followed by exactly one forwarding hand-off, the `RouteInfo` carrying the
registered method (equal to the request's), the route's own path without
prefix, the full effective prefix, the upstream's raw destination string
(the `UpstreamHost` field holds `u.Destination`, not merely its host
component), the upstream identifier and the owner; requests matching no
registration invoke nothing; and with no hook configured the hook is never
invoked. -/
theorem C4_observeHook (m : Manifest) (opts : List MountOption) (proxy : Proxy)
    (h : New m opts = .ok proxy) (hmw : (applyOpts opts).middleware = []) :
    (∀ f, (applyOpts opts).observe = some f → ∀ r : Request,
      ((proxy.serve r).events = [] ∧ (proxy.serve r).outcome ≠ .proxied) ∨
      (∃ u rt method rp r', u ∈ m.Upstreams ∧ rt ∈ u.Routes ∧ method ∈ rt.Methods ∧
        newReverseProxy u (applyOpts opts) = .ok rp ∧ method = r.Method ∧
        proxy.serve r =
          { events := [.obs r' { RouteMethod := method
                                 RoutePath := rt.Path
                                 RoutePfx := goJoin [(applyOpts opts).root, m.PrefixPath,
                                   u.PrefixPath]
                                 UpstreamHost := u.Destination
                                 UpstreamIdentifier := u.Identifier
                                 UpstreamOwner := u.Owner },
                       .fwd rp.target.Host r']
            outcome := .proxied })) ∧
    (∀ r : Request,
      proxy.regs.find? (fun reg => reg.method == r.Method && patMatch reg.pattern r.Path) =
        none → (proxy.serve r).events = []) ∧
    ((applyOpts opts).observe = none →
      ∀ (r req : Request) (info : RouteInfo), Ev.obs req info ∉ (proxy.serve r).events) := by
  obtain ⟨_, hmount, _, _, _⟩ := New_ok_inv m opts proxy h
  have hserve_none : ∀ r : Request,
      proxy.regs.find? (fun reg => reg.method == r.Method && patMatch reg.pattern r.Path) =
        none → (proxy.serve r).events = [] := by
    intro r hfind
    unfold Proxy.serve
    rw [hfind]
    cases proxy.notFoundHandler <;> rfl
  refine ⟨?_, hserve_none, ?_⟩
  · intro f hobs r
    cases hfind : proxy.regs.find?
        (fun reg => reg.method == r.Method && patMatch reg.pattern r.Path) with
    | none =>
      left
      refine ⟨hserve_none r hfind, ?_⟩
      unfold Proxy.serve
      rw [hfind]
      cases proxy.notFoundHandler <;> simp
    | some reg =>
      have hpred := List.find?_some hfind
      obtain ⟨u, rp, hu, hrp, hreg_mem⟩ :=
        mountAll_ok_forall _ _ _ _ hmount reg (List.mem_of_find?_eq_some hfind)
      rw [groupRegs_of_empty _ hmw] at hreg_mem
      obtain ⟨rt, method, hrt, hmeth, rfl⟩ := mem_mountRegs_elim _ _ _ _ _ hreg_mem
      simp only [Bool.and_eq_true, beq_iff_eq] at hpred
      have hserve : proxy.serve r =
          stripPfxHandler (goJoin [goJoin [(applyOpts opts).root, m.PrefixPath], u.PrefixPath])
            (proxyHandler rp (observeClosure (applyOpts opts) method rt
              (goJoin [goJoin [(applyOpts opts).root, m.PrefixPath], u.PrefixPath]) u)) r := by
        unfold Proxy.serve
        rw [hfind]
      rcases stripPfx_cases (goJoin [goJoin [(applyOpts opts).root, m.PrefixPath], u.PrefixPath])
          (proxyHandler rp (observeClosure (applyOpts opts) method rt
            (goJoin [goJoin [(applyOpts opts).root, m.PrefixPath], u.PrefixPath]) u)) r with
        hcase | hcase
      · left
        rw [hserve, hcase]
        exact ⟨rfl, by simp⟩
      · obtain ⟨r', hcase⟩ := hcase
        right
        refine ⟨u, rt, method, rp, r', hu, hrt, hmeth, hrp, hpred.1, ?_⟩
        rw [hserve, hcase]
        unfold proxyHandler observeClosure
        rw [hobs, goJoin_flat3]
        rfl
  · intro hnone r req info
    cases hfind : proxy.regs.find?
        (fun reg => reg.method == r.Method && patMatch reg.pattern r.Path) with
    | none =>
      rw [hserve_none r hfind]
      simp
    | some reg =>
      obtain ⟨u, rp, hu, hrp, hreg_mem⟩ :=
        mountAll_ok_forall _ _ _ _ hmount reg (List.mem_of_find?_eq_some hfind)
      rw [groupRegs_of_empty _ hmw] at hreg_mem
      obtain ⟨rt, method, hrt, hmeth, rfl⟩ := mem_mountRegs_elim _ _ _ _ _ hreg_mem
      have hserve : proxy.serve r =
          stripPfxHandler (goJoin [goJoin [(applyOpts opts).root, m.PrefixPath], u.PrefixPath])
            (proxyHandler rp (observeClosure (applyOpts opts) method rt
              (goJoin [goJoin [(applyOpts opts).root, m.PrefixPath], u.PrefixPath]) u)) r := by
        unfold Proxy.serve
        rw [hfind]
      rcases stripPfx_cases (goJoin [goJoin [(applyOpts opts).root, m.PrefixPath], u.PrefixPath])
          (proxyHandler rp (observeClosure (applyOpts opts) method rt
            (goJoin [goJoin [(applyOpts opts).root, m.PrefixPath], u.PrefixPath]) u)) r with
        hcase | hcase
      · rw [hserve, hcase]
        simp
      · obtain ⟨r', hcase⟩ := hcase
        rw [hserve, hcase]
        unfold proxyHandler observeClosure
        rw [hnone]
        simp

/-- C4 witness: with the hook configured on the routing fixture, a matched
request produces exactly one hook invocation, before the forwarding event,
carrying the same `RouteInfo` the repository's own test expects; an
unmatched request produces no events. -/
theorem C4_observeHook_witness :
    ∃ proxy, New exRoutingManifest [WithObserveFunction (fun _ _ => ())] = .ok proxy ∧
      proxy.serve (getReq "/api/v2/private/accounts") =
        { events := [.obs (getReq "/accounts") obsInfoAccounts,
                     .fwd "basic.local" (getReq "/accounts")]
          outcome := .proxied } ∧
      (proxy.serve (getReq "/api/v2/private/nothing")).events = [] := by
  refine ⟨_, rfl, by decide, ?_⟩
  exact (C4_observeHook exRoutingManifest [WithObserveFunction (fun _ _ => ())] _
    rfl rfl).2.1 (getReq "/api/v2/private/nothing") rfl

/-- C4 counterexample: the claim as stated says the hook's RouteInfo
carries the upstream's destination HOST; on the routing fixture the
`UpstreamHost` field holds the full raw destination string
"http://basic.local", which differs from the destination URL's host
component "basic.local". -/
theorem C4_counterexample :
    (serveNew exRoutingManifest [WithObserveFunction (fun _ _ => ())]
        (getReq "/api/v2/private/accounts")).map Trace.events =
      some [.obs (getReq "/accounts") obsInfoAccounts,
            .fwd "basic.local" (getReq "/accounts")] ∧
    obsInfoAccounts.UpstreamHost = "http://basic.local" ∧
    urlParse "http://basic.local" =
      .ok { Scheme := "http", Host := "basic.local", Path := "" } ∧
    obsInfoAccounts.UpstreamHost ≠ "basic.local" := by
  decide

/-! ## Claim C1 -/

/-- C1 (amended): for every manifest, upstream, route and method of a
successful compile (with no middleware interposed), `New` registers a
handler at the pattern `join(externalRoot, manifest.prefixPath,
upstream.prefixPath, route.path)`, and that handler strips exactly the
effective prefix `join(externalRoot, manifest.prefixPath,
upstream.prefixPath)` from the request's path before handing the request
to the forwarding handler: a request whose path is the prefix followed by
`rest` reaches the forwarding handler with path exactly `rest`.  (The
claim's second example does not hold as stated: with only the route
`/accounts/{id}` declared, a request to `/api/v2/private/accounts` matches
no route — see the counterexample — and forwards as `/accounts` only when
a route `/accounts` is also declared, as in the repository's routing
manifest.) -/
theorem C1_registration (m : Manifest) (opts : List MountOption) (proxy : Proxy)
    (h : New m opts = .ok proxy) (hmw : (applyOpts opts).middleware = [])
    (u : Upstream) (rt : Route) (method : String)
    (hu : u ∈ m.Upstreams) (hrt : rt ∈ u.Routes) (hmeth : method ∈ rt.Methods) :
    ∃ rp, newReverseProxy u (applyOpts opts) = .ok rp ∧
      ∃ reg, reg ∈ proxy.regs ∧
        reg.method = method ∧
        reg.pattern = goJoin [(applyOpts opts).root, m.PrefixPath, u.PrefixPath, rt.Path] ∧
        (∀ (r : Request) (rest : String),
          r.Path = goJoin [(applyOpts opts).root, m.PrefixPath, u.PrefixPath] ++ rest →
          reg.handler r =
            proxyHandler rp (observeClosure (applyOpts opts) method rt
              (goJoin [(applyOpts opts).root, m.PrefixPath, u.PrefixPath]) u)
              { r with Path := rest }) := by
  obtain ⟨_, hmount, _, _, _⟩ := New_ok_inv m opts proxy h
  obtain ⟨rp, hrp, hsub⟩ := mountAll_ok_mem _ _ _ _ hmount u hu
  rw [groupRegs_of_empty _ hmw] at hsub
  refine ⟨rp, hrp, _,
    hsub _ (mem_mountRegs_intro (goJoin [(applyOpts opts).root, m.PrefixPath]) u
      (applyOpts opts) rp rt method hrt hmeth), rfl, ?_, ?_⟩
  · exact goJoin_flat4 _ _ _ _
  · intro r rest hr
    show stripPfxHandler (goJoin [goJoin [(applyOpts opts).root, m.PrefixPath], u.PrefixPath])
      (proxyHandler rp (observeClosure (applyOpts opts) method rt
        (goJoin [goJoin [(applyOpts opts).root, m.PrefixPath], u.PrefixPath]) u)) r = _
    rw [goJoin_flat3]
    exact stripPfx_strips _ _ r rest hr

/-- C1 witness: on the routing fixture, the parameterized route is
registered at "/api/v2/private/accounts/{id}"; a request to
/api/v2/private/accounts/1 is forwarded with path /accounts/1, and the
plain route forwards /api/v2/private/accounts as /accounts. -/
theorem C1_registration_witness :
    serveNew exRoutingManifest [] (getReq "/api/v2/private/accounts/1") =
      some { events := [.fwd "basic.local" (getReq "/accounts/1")], outcome := .proxied } ∧
    serveNew exRoutingManifest [] (getReq "/api/v2/private/accounts") =
      some { events := [.fwd "basic.local" (getReq "/accounts")], outcome := .proxied } ∧
    ∃ proxy, New exRoutingManifest [] = .ok proxy ∧
      ∃ rp, newReverseProxy exAccounts (applyOpts []) = .ok rp ∧
        ∃ reg, reg ∈ proxy.regs ∧ reg.method = "GET" ∧
          reg.pattern = "/api/v2/private/accounts/{id}" ∧
          reg.handler (getReq "/api/v2/private/accounts/1") =
            proxyHandler rp (observeClosure (applyOpts []) "GET"
              { Methods := ["GET"], Path := "/accounts/{id}" }
              (goJoin [(applyOpts ([] : List MountOption)).root,
                exRoutingManifest.PrefixPath, exAccounts.PrefixPath]) exAccounts)
              (getReq "/accounts/1") := by
  refine ⟨by decide, by decide, _, rfl, ?_⟩
  obtain ⟨rp, hrp, reg, hmem, hmeth, hpat, hstrip⟩ :=
    C1_registration exRoutingManifest [] _ rfl rfl exAccounts
      { Methods := ["GET"], Path := "/accounts/{id}" } "GET"
      (List.mem_cons_self _ _) (List.mem_cons_self _ _) (List.mem_cons_self _ _)
  refine ⟨rp, hrp, reg, hmem, hmeth, ?_, ?_⟩
  · rw [hpat]
    decide
  · have := hstrip (getReq "/api/v2/private/accounts/1") "/accounts/1" (by decide)
    exact this

/-- C1 counterexample: with only the route /accounts/{id} declared — the
claim's own example configuration — a request to /api/v2/private/accounts
matches no route and nothing is forwarded, while /api/v2/private/accounts/1
forwards as /accounts/1. -/
theorem C1_counterexample :
    serveNew exOnlyParamManifest [] (getReq "/api/v2/private/accounts") =
      some { events := [], outcome := .routerNotFound } ∧
    serveNew exOnlyParamManifest [] (getReq "/api/v2/private/accounts/1") =
      some { events := [.fwd "basic.local" (getReq "/accounts/1")], outcome := .proxied } := by
  decide

/-! ## Lemmas: paths already in cleaned rooted form -/

/-- A path in rooted `path.Clean` normal form: empty, or a '/'-led
nonempty sequence of plain segments.  Declared route paths and prefixes
("/api/v2", "/private", "/accounts/{id}", …) all have this shape. -/
def CleanAbs (s : String) : Prop :=
  s = "" ∨ ∃ segs, segs ≠ [] ∧ (∀ seg ∈ segs, PlainSeg seg) ∧ s.data = '/' :: joinSegs segs

theorem strAppend_empty (s : String) : s ++ "" = s :=
  strEq_of_data (by rw [strData_append]; simp)

theorem joinSegs_append (xs ys : List Seg) (hx : xs ≠ []) (hy : ys ≠ []) :
    joinSegs (xs ++ ys) = joinSegs xs ++ '/' :: joinSegs ys := by
  induction xs with
  | nil => exact absurd rfl hx
  | cons x xs ih =>
    cases xs with
    | nil =>
      obtain ⟨y, ys', rfl⟩ := List.exists_cons_of_ne_nil hy
      rfl
    | cons x2 xs2 =>
      have ih' := ih (by simp)
      obtain ⟨y, ys', rfl⟩ := List.exists_cons_of_ne_nil hy
      show x ++ '/' :: joinSegs ((x2 :: xs2) ++ (y :: ys')) =
        (x ++ '/' :: joinSegs (x2 :: xs2)) ++ '/' :: joinSegs (y :: ys')
      rw [ih']
      simp

theorem joinSegs_splitSegs (p : List Char) : joinSegs (splitSegs p) = p := by
  induction p with
  | nil => rfl
  | cons c cs ih =>
    rw [splitSegs_cons]
    cases h : splitSegs cs with
    | nil => exact absurd h (splitSegs_ne_nil cs)
    | cons t ts =>
      rw [h] at ih
      by_cases hc : c = '/'
      · subst hc
        show joinSegs (if '/' = '/' then [] :: t :: ts else ('/' :: t) :: ts) = '/' :: cs
        rw [if_pos rfl]
        show '/' :: joinSegs (t :: ts) = '/' :: cs
        rw [ih]
      · show joinSegs (if c = '/' then [] :: t :: ts else (c :: t) :: ts) = c :: cs
        rw [if_neg hc]
        cases ts with
        | nil =>
          show c :: t = c :: cs
          rw [show joinSegs [t] = t from rfl] at ih
          rw [ih]
        | cons t2 ts2 =>
          show (c :: t) ++ '/' :: joinSegs (t2 :: ts2) = c :: cs
          rw [List.cons_append]
          rw [show joinSegs (t :: t2 :: ts2) = t ++ '/' :: joinSegs (t2 :: ts2) from rfl] at ih
          rw [ih]

theorem cleanChars_trailing (p : List Char) (hp : p ≠ []) :
    cleanChars (p ++ ['/']) = cleanChars p := by
  have hne : p ++ ['/'] ≠ [] := by simp
  rw [show (['/'] : List Char) = '/' :: [] from rfl] at hne ⊢
  rw [cleanChars_of_ne_nil _ hne, cleanChars_of_ne_nil p hp, rootedOf_append _ _ hp,
      splitSegs_append, runSegs_append]
  congr 1

/-- A nonempty `CleanAbs` path is a fixpoint of `path.Clean`. -/
theorem cleanAbs_fix (a : String) (h : CleanAbs a) (ha : a ≠ "") : pathClean a = a := by
  rcases h with rfl | ⟨segs, hne, hplain, hdata⟩
  · exact absurd rfl ha
  · apply strEq_of_data
    rw [pathClean_data, hdata, cleanChars_of_ne_nil _ (by simp)]
    have hfree : ∀ s ∈ segs, '/' ∉ s := fun s hs => (hplain s hs).2.2.2
    have hrev : segs.reverse ≠ [] := by simpa using hne
    have hsplit : splitSegs ('/' :: joinSegs segs) = [] :: segs := by
      rw [splitSegs_cons_slash, splitSegs_joinSegs segs hne hfree]
    rw [show rootedOf ('/' :: joinSegs segs) = true from by simp [rootedOf], hsplit]
    show renderClean true (List.foldl (cleanStep true) (cleanStep true [] []) segs) = _
    rw [show cleanStep true [] [] = [] from by simp [cleanStep],
        foldl_cleanStep_plain true segs [] hplain]
    simp [renderClean]

/-- Concatenating cleaned rooted paths: `path.Join` of two `CleanAbs`
paths is their string concatenation, which is again `CleanAbs`. -/
theorem cleanAbs_concat (a b : String) (hca : CleanAbs a) (hcb : CleanAbs b) :
    goJoin [a, b] = a ++ b ∧ CleanAbs (a ++ b) := by
  by_cases ha : a = ""
  · subst ha
    rw [strEmpty_append]
    by_cases hb : b = ""
    · subst hb
      exact ⟨rfl, Or.inl rfl⟩
    · constructor
      · rw [show goJoin ["", b] = goJoin [b] from by simp [goJoin],
            show goJoin [b] = pathClean (joinSlash [b]) from by simp [goJoin, hb],
            show joinSlash [b] = b from rfl]
        exact cleanAbs_fix b hcb hb
      · exact hcb
  · obtain ⟨as, hane, haplain, hadata⟩ := hca.resolve_left ha
    by_cases hb : b = ""
    · subst hb
      rw [strAppend_empty]
      constructor
      · rw [show goJoin [a, ""] = pathClean (joinSlash [a, ""]) from by simp [goJoin, ha],
            show joinSlash [a, ""] = a ++ "/" ++ "" from rfl, strAppend_empty]
        apply strEq_of_data
        rw [pathClean_data,
            show (a ++ "/").data = a.data ++ ['/'] from by rw [strData_append],
            cleanChars_trailing a.data (strData_ne_nil a ha)]
        have := cleanAbs_fix a hca ha
        rw [← pathClean_data, this]
      · exact hca
    · obtain ⟨bs, hbne, hbplain, hbdata⟩ := hcb.resolve_left hb
      have habdata : (a ++ b).data = '/' :: joinSegs (as ++ bs) := by
        rw [strData_append, hadata, hbdata, joinSegs_append as bs hane hbne]
        rfl
      have hcab : CleanAbs (a ++ b) := by
        refine Or.inr ⟨as ++ bs, by simp [hane], ?_, habdata⟩
        intro s hs
        rcases List.mem_append.mp hs with h1 | h2
        · exact haplain s h1
        · exact hbplain s h2
      refine ⟨?_, hcab⟩
      rw [show goJoin [a, b] = pathClean (joinSlash [a, b]) from by simp [goJoin, ha],
          show joinSlash [a, b] = a ++ "/" ++ b from rfl]
      apply strEq_of_data
      rw [pathClean_data, slash_data_append, habdata]
      have hadne : a.data ≠ [] := strData_ne_nil a ha
      rw [cleanChars_of_ne_nil _ (by simp [hadne]),
          rootedOf_append _ _ hadne,
          show rootedOf a.data = true from by rw [hadata]; simp [rootedOf],
          splitSegs_append,
          show splitSegs a.data = [] :: as from by
            rw [hadata, splitSegs_cons_slash,
                splitSegs_joinSegs as hane (fun s hs => (haplain s hs).2.2.2)],
          show splitSegs b.data = [] :: bs from by
            rw [hbdata, splitSegs_cons_slash,
                splitSegs_joinSegs bs hbne (fun s hs => (hbplain s hs).2.2.2)],
          runSegs_append]
      have h1 : runSegs true ([] :: as) = as.reverse := by
        show List.foldl (cleanStep true) (cleanStep true [] []) as = _
        rw [show cleanStep true [] [] = [] from by simp [cleanStep],
            foldl_cleanStep_plain true as [] haplain]
        simp
      rw [h1]
      show renderClean true (List.foldl (cleanStep true) (cleanStep true as.reverse []) bs) = _
      rw [show cleanStep true as.reverse [] = as.reverse from by simp [cleanStep],
          foldl_cleanStep_plain true bs as.reverse hbplain]
      simp [renderClean]

/-! ## Lemmas: matched requests carry the mount prefix -/

/-- A character of a member segment is a character of the joined path. -/
theorem mem_joinSegs (segs : List Seg) (s : Seg) (c : Char) (hc : c ∈ s) :
    ∀ _ : s ∈ segs, c ∈ joinSegs segs := by
  induction segs with
  | nil => intro hs; simp at hs
  | cons t ts ih =>
    intro hs
    cases ts with
    | nil =>
      rcases List.mem_cons.mp hs with rfl | hs'
      · exact hc
      · simp at hs'
    | cons t2 ts2 =>
      show c ∈ t ++ '/' :: joinSegs (t2 :: ts2)
      rcases List.mem_cons.mp hs with rfl | hs'
      · exact List.mem_append.mpr (Or.inl hc)
      · exact List.mem_append.mpr (Or.inr (List.mem_cons_of_mem _ (ih hs')))

/-- A path accepted by `startsSlash` begins with '/'. -/
theorem startsSlash_data (s : String) (h : startsSlash s = true) :
    ∃ tl, s.data = '/' :: tl := by
  unfold startsSlash at h
  cases hd : s.data with
  | nil => rw [hd] at h; exact Bool.noConfusion (show false = true from h)
  | cons c tl =>
    rw [hd] at h
    have hc : c = '/' := of_decide_eq_true (show decide (c = '/') = true from h)
    subst hc
    exact ⟨tl, rfl⟩

/-- A match against a pattern whose leading segments are all literal
(contain no '{' opener) forces the path to start with exactly those
segments. -/
theorem segsMatch_literal_split (xs : List Seg) :
    ∀ (ys zs : List Seg),
      (∀ x ∈ xs, ∀ c cs, x = c :: cs → c ≠ '{') →
      segsMatch (xs ++ ys) zs = true →
      ∃ zs', zs = xs ++ zs' ∧ segsMatch ys zs' = true := by
  induction xs with
  | nil => intro ys zs _ h; exact ⟨zs, rfl, h⟩
  | cons x xs ih =>
    intro ys zs hlit h
    cases zs with
    | nil => exact Bool.noConfusion (show false = true from h)
    | cons z zs0 =>
      have h' : (segMatch x z && segsMatch (xs ++ ys) zs0) = true := h
      rw [Bool.and_eq_true] at h'
      have hxz : x = z := by
        cases x with
        | nil => exact eq_of_beq (show (([] : Seg) == z) = true from h'.1)
        | cons c cs =>
          have hc : c ≠ '{' := hlit (c :: cs) (List.mem_cons_self _ _) c cs rfl
          have hz : (if c = '{' then decide (z ≠ []) else ((c :: cs) == z)) = true := h'.1
          rw [if_neg hc] at hz
          exact eq_of_beq hz
      subst hxz
      obtain ⟨zs', rfl, hys⟩ :=
        ih ys zs0 (fun x' hx' => hlit x' (List.mem_cons_of_mem _ hx')) h'.2
      exact ⟨zs', rfl, hys⟩

/-- Middleware wrapping changes only the handler of a registration. -/
theorem groupRegs_pattern (cfg : mountConfig) (u : Upstream) (regs : List Registration)
    (reg : Registration) (h : reg ∈ groupRegs cfg u regs) :
    ∃ reg0 ∈ regs, reg.pattern = reg0.pattern ∧ reg.method = reg0.method := by
  unfold groupRegs at h
  cases hm : mapGet cfg.middleware u.Identifier with
  | none => rw [hm] at h; exact ⟨reg, h, rfl, rfl⟩
  | some ms =>
    rw [hm] at h
    obtain ⟨reg0, hreg0, heq⟩ := List.mem_map.mp h
    exact ⟨reg0, hreg0, by rw [← heq], by rw [← heq]⟩

/-- A request whose path matches the pattern `root ++ t`, where `root` is a
nonempty brace-free `CleanAbs` prefix and `t` is `CleanAbs`, starts with
`root` byte-for-byte. -/
theorem matched_has_pre (root t path : String)
    (hroot : CleanAbs root) (ht : CleanAbs t) (hb : '{' ∉ root.data)
    (hm : patMatch (root ++ t) path = true) (hr : root ≠ "") :
    ∃ rest, path = root ++ rest := by
  obtain ⟨rs, hrne, hrplain, hrdata⟩ := hroot.resolve_left hr
  have hsplit_root : splitSegs ('/' :: joinSegs rs) = [] :: rs := by
    rw [splitSegs_cons_slash, splitSegs_joinSegs rs hrne (fun s hs => (hrplain s hs).2.2.2)]
  have hsplit_pat : ∃ tail, splitSegs (root ++ t).data = ([] :: rs) ++ tail := by
    by_cases htt : t = ""
    · subst htt
      refine ⟨[], ?_⟩
      rw [strAppend_empty, List.append_nil, hrdata]
      exact hsplit_root
    · obtain ⟨ts, htne, htplain, htdata⟩ := ht.resolve_left htt
      refine ⟨ts, ?_⟩
      rw [strData_append, hrdata, htdata, splitSegs_append,
          splitSegs_joinSegs ts htne (fun s hs => (htplain s hs).2.2.2), hsplit_root]
  obtain ⟨tail, hsp⟩ := hsplit_pat
  unfold patMatch at hm
  rw [hsp] at hm
  have hlit : ∀ x ∈ ([] :: rs : List Seg), ∀ c cs, x = c :: cs → c ≠ '{' := by
    intro x hx c cs hxc hceq
    rcases List.mem_cons.mp hx with rfl | hx'
    · exact List.noConfusion hxc
    · apply hb
      rw [hrdata]
      exact List.mem_cons_of_mem _
        (mem_joinSegs rs x '{' (by rw [hxc, ← hceq]; exact List.mem_cons_self c cs) hx')
  obtain ⟨zs', hzs, _⟩ := segsMatch_literal_split ([] :: rs) tail (splitSegs path.data) hlit hm
  have hpd : path.data = joinSegs (([] :: rs) ++ zs') := by
    rw [← hzs, joinSegs_splitSegs]
  have hjrs : joinSegs ([] :: rs) = '/' :: joinSegs rs := by
    obtain ⟨r0, rs0, rfl⟩ := List.exists_cons_of_ne_nil hrne
    rfl
  cases zs' with
  | nil =>
    refine ⟨"", ?_⟩
    rw [strAppend_empty]
    apply strEq_of_data
    rw [hpd, List.append_nil, hjrs, hrdata]
  | cons z0 zs0 =>
    refine ⟨⟨'/' :: joinSegs (z0 :: zs0)⟩, ?_⟩
    apply strEq_of_data
    rw [hpd, joinSegs_append ([] :: rs) (z0 :: zs0) (by simp) (by simp), hjrs, strData_append,
        hrdata]

/-- Boolean recognizer for `CleanAbs` (so concrete paths can be checked by
evaluation). -/
def cleanAbsB (s : String) : Bool :=
  s == "" ||
    match s.data with
    | c :: rest =>
        decide (c = '/') &&
          (splitSegs rest).all fun seg =>
            decide (seg ≠ []) && decide (seg ≠ ['.']) && decide (seg ≠ ['.', '.'])
    | [] => false

theorem cleanAbs_of_b (s : String) (h : cleanAbsB s = true) : CleanAbs s := by
  unfold cleanAbsB at h
  rw [Bool.or_eq_true] at h
  rcases h with h | h
  · exact Or.inl (eq_of_beq h)
  · cases hd : s.data with
    | nil => rw [hd] at h; exact Bool.noConfusion (show false = true from h)
    | cons c rest =>
      rw [hd] at h
      have h' : (decide (c = '/') &&
          (splitSegs rest).all fun seg =>
            decide (seg ≠ []) && decide (seg ≠ ['.']) && decide (seg ≠ ['.', '.'])) = true := h
      rw [Bool.and_eq_true] at h'
      have hc : c = '/' := of_decide_eq_true h'.1
      refine Or.inr ⟨splitSegs rest, splitSegs_ne_nil rest, ?_, ?_⟩
      · intro seg hseg
        have hall := List.all_eq_true.mp h'.2 seg hseg
        have hall2 : (decide (seg ≠ []) && decide (seg ≠ ['.']) &&
            decide (seg ≠ ['.', '.'])) = true := hall
        rw [Bool.and_eq_true, Bool.and_eq_true] at hall2
        exact ⟨of_decide_eq_true hall2.1.1, of_decide_eq_true hall2.1.2,
          of_decide_eq_true hall2.2, splitSegs_no_slash rest seg hseg⟩
      · rw [hd, hc, joinSegs_splitSegs]

/-- C7: on a successfully compiled dispatcher, `Root` reports "/" when the
external mount root and the manifest prefix are both empty, and otherwise
reports `path.Join(externalRoot, manifest.PrefixPath)`; and — for declared
roots and prefixes in cleaned rooted form, with no brace parameters in the
root — every request that matches some registered route carries that full
reported prefix at the start of its path. -/
theorem C7_root (m : Manifest) (opts : List MountOption) (proxy : Proxy)
    (h : New m opts = .ok proxy) :
    ((applyOpts opts).root = "" ∧ m.PrefixPath = "" → proxy.Root = "/") ∧
    (¬ ((applyOpts opts).root = "" ∧ m.PrefixPath = "") →
      proxy.Root = goJoin [(applyOpts opts).root, m.PrefixPath]) ∧
    (CleanAbs (applyOpts opts).root → CleanAbs m.PrefixPath →
      '{' ∉ ((applyOpts opts).root).data → '{' ∉ m.PrefixPath.data →
      (∀ u ∈ m.Upstreams, CleanAbs u.PrefixPath ∧ ∀ rt ∈ u.Routes, CleanAbs rt.Path) →
      ∀ (r : Request) (reg : Registration), startsSlash r.Path = true →
        proxy.regs.find? (fun rg => rg.method == r.Method && patMatch rg.pattern r.Path) =
          some reg →
        ∃ rest, r.Path = proxy.Root ++ rest) := by
  obtain ⟨_, hmount, hroot, _, _⟩ := New_ok_inv m opts proxy h
  refine ⟨?_, ?_, ?_⟩
  · rintro ⟨h1, h2⟩
    unfold Proxy.Root
    rw [hroot, if_pos ((goJoin_pair_empty_iff _ _).mpr ⟨h1, h2⟩)]
  · intro hne
    unfold Proxy.Root
    rw [hroot, if_neg (fun heq => hne ((goJoin_pair_empty_iff _ _).mp heq))]
  · intro hcr hcm hbr hbm hcups r reg hstart hfind
    have hpred := List.find?_some hfind
    rw [Bool.and_eq_true] at hpred
    obtain ⟨u, rp, hu, _, hreg_mem⟩ :=
      mountAll_ok_forall _ _ _ _ hmount reg (List.mem_of_find?_eq_some hfind)
    obtain ⟨reg0, hreg0, hpat_eq, _⟩ := groupRegs_pattern _ _ _ _ hreg_mem
    obtain ⟨rt, method, hrt, hmeth, hr0⟩ := mem_mountRegs_elim _ _ _ _ _ hreg0
    obtain ⟨hjoin1, hclean1⟩ := cleanAbs_concat (applyOpts opts).root m.PrefixPath hcr hcm
    obtain ⟨hcu, hcrt⟩ := hcups u hu
    obtain ⟨hjoinT, hcleanT⟩ := cleanAbs_concat u.PrefixPath rt.Path hcu (hcrt rt hrt)
    obtain ⟨hjoin2, hclean2⟩ :=
      cleanAbs_concat ((applyOpts opts).root ++ m.PrefixPath) u.PrefixPath hclean1 hcu
    obtain ⟨hjoin3, _⟩ :=
      cleanAbs_concat (((applyOpts opts).root ++ m.PrefixPath) ++ u.PrefixPath) rt.Path
        hclean2 (hcrt rt hrt)
    have hpat : reg.pattern =
        ((applyOpts opts).root ++ m.PrefixPath) ++ (u.PrefixPath ++ rt.Path) := by
      rw [hpat_eq, hr0]
      show goJoin [goJoin [goJoin [(applyOpts opts).root, m.PrefixPath], u.PrefixPath],
             rt.Path] = _
      rw [hjoin1, hjoin2, hjoin3, strAppend_assoc]
    have hmatch :
        patMatch (((applyOpts opts).root ++ m.PrefixPath) ++ (u.PrefixPath ++ rt.Path))
          r.Path = true := by
      rw [← hpat]
      exact hpred.2
    by_cases hre : (applyOpts opts).root ++ m.PrefixPath = ""
    · have hRoot : proxy.Root = "/" := by
        unfold Proxy.Root
        rw [hroot, hjoin1, if_pos hre]
      obtain ⟨tl, htl⟩ := startsSlash_data r.Path hstart
      refine ⟨⟨tl⟩, ?_⟩
      rw [hRoot]
      apply strEq_of_data
      rw [htl, strData_append]
      rfl
    · have hRoot : proxy.Root = (applyOpts opts).root ++ m.PrefixPath := by
        unfold Proxy.Root
        rw [hroot, hjoin1, if_neg hre]
      rw [hRoot]
      have hb' : '{' ∉ ((applyOpts opts).root ++ m.PrefixPath).data := by
        rw [strData_append]
        intro hmem
        rcases List.mem_append.mp hmem with h1 | h2
        · exact hbr h1
        · exact hbm h2
      exact matched_has_pre _ _ _ hclean1 hcleanT hb' hmatch hre

/-- C7 witness: an empty manifest with no options reports root "/"; the
routing fixture mounted at external root "/root" reports
"/root/api/v2", a request lacking that prefix matches nothing, and a
matched request's path starts with the reported root. -/
theorem C7_root_witness :
    (∃ proxy0, New ({ Upstreams := [] } : Manifest) [] = .ok proxy0 ∧
      proxy0.Root = "/") ∧
    ∃ proxy, New exRoutingManifest [WithRoot "/root"] = .ok proxy ∧
      proxy.Root = "/root/api/v2" ∧
      serveNew exRoutingManifest [WithRoot "/root"] (getReq "/api/v2/private/accounts/1") =
        some { events := [], outcome := .routerNotFound } ∧
      ∃ rest, (getReq "/root/api/v2/private/accounts/1").Path = proxy.Root ++ rest := by
  constructor
  · refine ⟨_, rfl, ?_⟩
    exact (C7_root ({ Upstreams := [] } : Manifest) [] _ rfl).1 ⟨rfl, rfl⟩
  · refine ⟨_, rfl, ?_, by decide, ?_⟩
    · rw [(C7_root exRoutingManifest [WithRoot "/root"] _ rfl).2.1 (by decide)]
      decide
    · refine (C7_root exRoutingManifest [WithRoot "/root"] _ rfl).2.2
        (cleanAbs_of_b _ (by decide)) (cleanAbs_of_b _ (by decide))
        (by decide) (by decide) ?_ (getReq "/root/api/v2/private/accounts/1") _
        (by decide) rfl
      intro u hu
      fin_cases hu
      refine ⟨cleanAbs_of_b _ (by decide), ?_⟩
      intro rt hrt
      fin_cases hrt <;> exact cleanAbs_of_b _ (by decide)

end Pass
